import Mathlib

/-!
Verification of the ABI type grammar, signature parser and event-log decoder
of the blockstream repository (src/blockchain/{configuration,decoder,decode}.rs).

Machine integers (`usize`) are modelled as `Nat` with explicit wrapping
`% 2^64` where Rust release-mode arithmetic wraps; a Rust panic (slice
index out of range, and in debug builds an overflowing add) is modelled
as the distinguished outcome `Outcome.panicked`.
-/

set_option maxRecDepth 4000

/-- Size of the `usize` value space on the 64-bit hosts the program targets. -/
def USIZE : Nat := 2 ^ 64

/-- Rust release-mode wrapping addition on `usize`. -/
def wrapAdd (a b : Nat) : Nat := (a + b) % USIZE

/-- Result of a Rust computation that can return a value, return an error
(`Result::Err`), or panic. -/
inductive Outcome (ε α : Type) where
  | ok (a : α)
  | err (e : ε)
  | panicked

instance : Monad (Outcome ε) where
  pure := Outcome.ok
  bind x f :=
    match x with
    | .ok a => f a
    | .err e => .err e
    | .panicked => .panicked

/-- `enum ParamType` from src/blockchain/configuration.rs. -/
inductive ParamType where
  | Address
  | UInt (w : Nat)
  | Int (w : Nat)
  | Bool
  | String
  | Bytes
  | FixedBytes (n : Nat)
  | Array (t : ParamType)
  | Struct (ts : List ParamType)

/-- `enum Parameter` from src/blockchain/decoder.rs.  The identical enum in
src/blockchain/decode.rs (whose hand-written `PartialEq` is structural
equality) is modelled by this same type.  A Rust `String` is represented by
its UTF-8 bytes; an `Address` by its 20 bytes. -/
inductive Parameter where
  | address (a : List Nat)
  | uint (n : Nat)
  | int (i : Int)
  | bool (b : Bool)
  | string (s : List Nat)
  | bytes (bs : List Nat)
  | fixedBytes (bs : List Nat)
  | fixedArray (ps : List Parameter)
  | array (ps : List Parameter)
  | struct (ps : List Parameter)

/-- `enum DecodeError` from src/blockchain/decoder.rs (payloads dropped). -/
inductive DecodeError where
  | outOfBounds
  | invalidUnsignedInteger
  | invalidSignedInteger
  | utf8Error
  | memoryAllocationError
  deriving DecidableEq

/-- `struct DecodeResult` shared shape of decoder.rs and decode.rs. -/
structure DecodeResult where
  parameter : Parameter
  new_offset : Nat

/-! ### UTF-8 (model of Rust `String::from_utf8` validity and
`String::from_utf8_lossy`) -/

/-- A UTF-8 continuation byte `0x80..=0xBF`. -/
def isCont (b : Nat) : Bool := 0x80 ≤ b && b ≤ 0xBF

/-- Allowed range of the first continuation byte of a 3-byte sequence,
depending on the leader (`E0` excludes overlong, `ED` excludes surrogates). -/
def cont3ok (b c1 : Nat) : Bool :=
  if b = 0xE0 then 0xA0 ≤ c1 && c1 ≤ 0xBF
  else if b = 0xED then 0x80 ≤ c1 && c1 ≤ 0x9F
  else isCont c1

/-- Allowed range of the first continuation byte of a 4-byte sequence,
depending on the leader (`F0` excludes overlong, `F4` caps at U+10FFFF). -/
def cont4ok (b c1 : Nat) : Bool :=
  if b = 0xF0 then 0x90 ≤ c1 && c1 ≤ 0xBF
  else if b = 0xF4 then 0x80 ≤ c1 && c1 ≤ 0x8F
  else isCont c1

/-- Rust's `core::str` UTF-8 validation: `String::from_utf8(v)` succeeds
exactly when `utf8Valid v`. -/
def utf8Valid : List Nat → Bool
  | [] => true
  | b :: rest =>
    if b ≤ 0x7F then utf8Valid rest
    else if 0xC2 ≤ b && b ≤ 0xDF then
      match rest with
      | c1 :: r => isCont c1 && utf8Valid r
      | [] => false
    else if 0xE0 ≤ b && b ≤ 0xEF then
      match rest with
      | c1 :: c2 :: r => cont3ok b c1 && isCont c2 && utf8Valid r
      | _ => false
    else if 0xF0 ≤ b && b ≤ 0xF4 then
      match rest with
      | c1 :: c2 :: c3 :: r => cont4ok b c1 && isCont c2 && isCont c3 && utf8Valid r
      | _ => false
    else false

/-- UTF-8 encoding of U+FFFD REPLACEMENT CHARACTER. -/
def replacementBytes : List Nat := [0xEF, 0xBF, 0xBD]

/-- Rust's `String::from_utf8_lossy`, as the UTF-8 bytes of its result:
each maximal invalid subpart (per `Utf8Error::error_len`) is replaced by
U+FFFD. -/
def utf8Lossy : List Nat → List Nat
  | [] => []
  | b :: rest =>
    if b ≤ 0x7F then b :: utf8Lossy rest
    else if 0xC2 ≤ b && b ≤ 0xDF then
      match rest with
      | c1 :: r =>
        if isCont c1 then b :: c1 :: utf8Lossy r
        else replacementBytes ++ utf8Lossy (c1 :: r)
      | [] => replacementBytes
    else if 0xE0 ≤ b && b ≤ 0xEF then
      match rest with
      | c1 :: r1 =>
        if cont3ok b c1 then
          match r1 with
          | c2 :: r =>
            if isCont c2 then b :: c1 :: c2 :: utf8Lossy r
            else replacementBytes ++ utf8Lossy (c2 :: r)
          | [] => replacementBytes
        else replacementBytes ++ utf8Lossy (c1 :: r1)
      | [] => replacementBytes
    else if 0xF0 ≤ b && b ≤ 0xF4 then
      match rest with
      | c1 :: r1 =>
        if cont4ok b c1 then
          match r1 with
          | c2 :: r2 =>
            if isCont c2 then
              match r2 with
              | c3 :: r =>
                if isCont c3 then b :: c1 :: c2 :: c3 :: utf8Lossy r
                else replacementBytes ++ utf8Lossy (c3 :: r)
              | [] => replacementBytes
            else replacementBytes ++ utf8Lossy (c2 :: r2)
          | [] => replacementBytes
        else replacementBytes ++ utf8Lossy (c1 :: r1)
      | [] => replacementBytes
    else replacementBytes ++ utf8Lossy rest

/-! ### The `alloy` 256-bit signed integer, as used by the decoders.

Modelled from the spec: the alloy library (`Signed::<256, 4>`) is an
external dependency whose source is not part of this repository.  Per the
spec (§4.5): `try_from_be_slice` interprets a big-endian byte slice as a
256-bit two's-complement value (failing only on slices longer than 32
bytes), and the reference implementation's `as_usize` / `as_isize`
"truncates to host-`usize`/`isize`", i.e. to the low 64 bits. -/

/-- Big-endian value of a byte list. -/
def beNat (l : List Nat) : Nat := l.foldl (fun acc b => acc * 256 + b) 0

/-- Modelled from the spec: `Signed::<256, 4>::try_from_be_slice`. -/
def signedFromBe32 (l : List Nat) : Option Int :=
  if l.length ≤ 32 then
    some (if beNat l < 2 ^ 255 then (beNat l : Int) else (beNat l : Int) - 2 ^ 256)
  else none

/-- Modelled from the spec: `Signed::as_usize`, truncation to the low
64 bits of the two's-complement representation. -/
def signedAsUsize (v : Int) : Nat := (v % (2 ^ 64 : Int)).toNat

/-- Modelled from the spec: `Signed::as_isize`, the low 64 bits read back
as a two's-complement `i64`. -/
def signedAsIsize (v : Int) : Int :=
  let m := v % (2 ^ 64 : Int)
  if m < 2 ^ 63 then m else m - 2 ^ 64

/-! ### src/blockchain/decoder.rs -/

mutual

/-- Number of `ParamType` nodes in a type term; bounds the recursion depth
of the decoders and of the type grammar, and serves as their fuel. -/
def tySize : ParamType → Nat
  | .Address => 1
  | .UInt _ => 1
  | .Int _ => 1
  | .Bool => 1
  | .String => 1
  | .Bytes => 1
  | .FixedBytes _ => 1
  | .Array t => tySize t + 1
  | .Struct ts => tySizeL ts + 1

/-- Total `tySize` of a list of type terms. -/
def tySizeL : List ParamType → Nat
  | [] => 0
  | p :: ps => tySize p + tySizeL ps

end

namespace Decoder

/-- `fn peek` (decoder.rs:229).  The Rust source computes `offset + len`
with an unchecked `+`: in release mode the sum wraps and the subsequent
slice `&data[offset..offset + len]` panics when the wrapped end lies
before `offset` (in debug mode the overflowing add itself panics). -/
def peek (data : List Nat) (offset len : Nat) : Outcome DecodeError (List Nat) :=
  if wrapAdd offset len > data.length then .err .outOfBounds
  else if offset ≤ wrapAdd offset len then
    .ok ((data.drop offset).take (wrapAdd offset len - offset))
  else .panicked

/-- `fn peek_32_bytes` (decoder.rs:237); `out.copy_from_slice(&x[0..32])`
panics if the peeked slice is shorter than 32 bytes. -/
def peek_32_bytes (data : List Nat) (offset : Nat) : Outcome DecodeError (List Nat) := do
  let x ← peek data offset 32
  if 32 ≤ x.length then pure (x.take 32) else .panicked

/-- `fn as_usize` (decoder.rs:245). -/
def as_usize (slice : List Nat) : Outcome DecodeError Nat :=
  if (slice.take 28).all (fun x => x == 0) then
    .ok (slice.getD 28 0 * 2 ^ 24 + slice.getD 29 0 * 2 ^ 16 +
      slice.getD 30 0 * 2 ^ 8 + slice.getD 31 0)
  else .err .invalidUnsignedInteger

/-- `fn take_bytes` (decoder.rs:258); same unchecked addition as `peek`. -/
def take_bytes (data : List Nat) (offset len : Nat) : Outcome DecodeError (List Nat) :=
  if wrapAdd offset len > data.length then .err .outOfBounds
  else if offset ≤ wrapAdd offset len then
    .ok ((data.drop offset).take (wrapAdd offset len - offset))
  else .panicked

/-- `EthereumDecoder::decode_address`. -/
def decode_address (data : List Nat) (offset : Nat) : Outcome DecodeError DecodeResult := do
  let slice ← peek_32_bytes data offset
  pure ⟨.address (slice.drop 12), wrapAdd offset 32⟩

/-- `EthereumDecoder::decode_uint`. -/
def decode_uint (data : List Nat) (offset : Nat) : Outcome DecodeError DecodeResult := do
  let slice ← peek_32_bytes data offset
  match signedFromBe32 slice with
  | some value => pure ⟨.uint (signedAsUsize value), wrapAdd offset 32⟩
  | none => .err .invalidSignedInteger

/-- `EthereumDecoder::decode_int`. -/
def decode_int (data : List Nat) (offset : Nat) : Outcome DecodeError DecodeResult := do
  let slice ← peek_32_bytes data offset
  match signedFromBe32 slice with
  | some value => pure ⟨.int (signedAsIsize value), wrapAdd offset 32⟩
  | none => .err .invalidSignedInteger

/-- `EthereumDecoder::decode_bool` (`slice[31] == 1`). -/
def decode_bool (data : List Nat) (offset : Nat) : Outcome DecodeError DecodeResult := do
  let slice ← peek_32_bytes data offset
  pure ⟨.bool (slice.getD 31 0 == 1), wrapAdd offset 32⟩

/-- `EthereumDecoder::decode_string`; `String::from_utf8` fails on invalid
UTF-8 (`DecodeError::Utf8Error`). -/
def decode_string (data : List Nat) (offset : Nat) : Outcome DecodeError DecodeResult := do
  let w ← peek_32_bytes data offset
  let dynamic_offset ← as_usize w
  let w2 ← peek_32_bytes data dynamic_offset
  let len ← as_usize w2
  let bytes ← take_bytes data (wrapAdd dynamic_offset 32) len
  if utf8Valid bytes then pure ⟨.string bytes, wrapAdd offset 32⟩
  else .err .utf8Error

/-- `EthereumDecoder::decode_bytes`. -/
def decode_bytes (data : List Nat) (offset : Nat) : Outcome DecodeError DecodeResult := do
  let w ← peek_32_bytes data offset
  let dynamic_offset ← as_usize w
  let w2 ← peek_32_bytes data dynamic_offset
  let len ← as_usize w2
  let bytes ← take_bytes data (wrapAdd dynamic_offset 32) len
  pure ⟨.bytes bytes, wrapAdd offset 32⟩

/-- `EthereumDecoder::decode_fixed_bytes`. -/
def decode_fixed_bytes (data : List Nat) (offset length : Nat) :
    Outcome DecodeError DecodeResult := do
  let bytes ← take_bytes data offset length
  pure ⟨.fixedBytes bytes, wrapAdd offset 32⟩

/-- The `for _ in 0..len` loop of `EthereumDecoder::decode_array`,
parameterised by the element decoder. -/
def decode_array_loop (dec : List Nat → Nat → Outcome DecodeError DecodeResult) :
    Nat → List Nat → Nat → Outcome DecodeError (List Parameter)
  | 0, _, _ => pure []
  | n + 1, tail, off => do
    let res ← dec tail off
    let rest ← decode_array_loop dec n tail res.new_offset
    pure (res.parameter :: rest)

/-- The field loop of `EthereumDecoder::decode_struct`, parameterised by
the parameter decoder; returns the fields and the final offset. -/
def decode_struct_fields (dec : ParamType → List Nat → Nat → Outcome DecodeError DecodeResult) :
    List ParamType → List Nat → Nat → Outcome DecodeError (List Parameter × Nat)
  | [], _, off => pure ([], off)
  | p :: ps, data, off => do
    let res ← dec p data off
    let (rest, fin) ← decode_struct_fields dec ps data res.new_offset
    pure (res.parameter :: rest, fin)

/-- `EthereumDecoder::decode_parameter`, with a structural-recursion fuel
(first argument); `decode_parameter` below instantiates the fuel with
`sizeOf` of the type term, which always suffices (fuel is consumed only
when descending into a strictly smaller type term).  The `Array` branch
inlines `decode_array` (decoder.rs:141): `&data[tail_offset..]` panics when
`tail_offset > data.len()`, and `try_reserve_exact` (allocation) is
modelled as always succeeding.  The `Struct` branch inlines
`decode_struct` (decoder.rs:173). -/
def decP : Nat → ParamType → List Nat → Nat → Outcome DecodeError DecodeResult
  | 0 => fun _ _ _ => .panicked
  | f + 1 => fun t data offset =>
    match t with
    | .Address => decode_address data offset
    | .UInt _ => decode_uint data offset
    | .Int _ => decode_int data offset
    | .Bool => decode_bool data offset
    | .String => decode_string data offset
    | .Bytes => decode_bytes data offset
    | .FixedBytes size => decode_fixed_bytes data offset size
    | .Array t1 => do
        let w ← peek_32_bytes data offset
        let len_offset ← as_usize w
        let w2 ← peek_32_bytes data len_offset
        let len ← as_usize w2
        let tail_offset := wrapAdd len_offset 32
        if tail_offset ≤ data.length then do
          let tail := data.drop tail_offset
          let ps ← decode_array_loop (decP f t1) len tail 0
          pure ⟨.array ps, wrapAdd offset 32⟩
        else .panicked
    | .Struct ts => do
        let res ← decode_struct_fields (decP f) ts data offset
        pure ⟨.struct res.1, res.2⟩

/-- `EthereumDecoder::decode_parameter` (decoder.rs:209). -/
def decode_parameter (t : ParamType) (data : List Nat) (offset : Nat) :
    Outcome DecodeError DecodeResult :=
  decP (tySize t) t data offset

/-- The parameter loop of `EthereumDecoder::decode`. -/
def decode_go : List ParamType → List Nat → Nat → Outcome DecodeError (List Parameter)
  | [], _, _ => pure []
  | p :: ps, data, off => do
    let res ← decode_parameter p data off
    let rest ← decode_go ps data res.new_offset
    pure (res.parameter :: rest)

/-- `EthereumDecoder::decode` (decoder.rs:198): sweeps `param_types` from
offset 0. -/
def decode (param_types : List ParamType) (data : List Nat) :
    Outcome DecodeError (List Parameter) :=
  decode_go param_types data 0

end Decoder

/-- A 32-byte big-endian word with value `n < 2^8` (test vectors). -/
def word (n : Nat) : List Nat := List.replicate 31 0 ++ [n]

example : Decoder.decode [.Bool] (word 1) = .ok [.bool true] := by rfl

example : Decoder.decode [.UInt 256] (word 42) = .ok [.uint 42] := by rfl

example :
    Decoder.decode [.Array (.UInt 256)]
      (word 0x20 ++ word 3 ++ word 1 ++ word 2 ++ word 3) =
      .ok [.array [.uint 1, .uint 2, .uint 3]] := by rfl

example :
    Decoder.decode [.Struct [.UInt 256, .Bool]] (word 42 ++ word 1) =
      .ok [.struct [.uint 42, .bool true]] := by rfl

example :
    Decoder.decode [.Int 256] (List.replicate 31 0xff ++ [0xd6]) =
      .ok [.int (-42)] := by rfl

example :
    Decoder.decode [.String]
      (word 0x20 ++ word 13 ++
        ([0x48, 0x65, 0x6c, 0x6c, 0x6f, 0x2c, 0x20, 0x57, 0x6f, 0x72, 0x6c, 0x64, 0x21] ++
          List.replicate 19 0)) =
      .ok [.string [0x48, 0x65, 0x6c, 0x6c, 0x6f, 0x2c, 0x20, 0x57, 0x6f, 0x72, 0x6c, 0x64, 0x21]] := by
  rfl

/-! ### src/blockchain/decode.rs — the parallel implementation with
`String` errors.  Its `peek`, `peek_32_bytes`, `as_usize` and `take_bytes`
are byte-for-byte copies of decoder.rs's except for the error values. -/

namespace Decode

/-- `fn peek` (decode.rs:176), unchecked addition as in decoder.rs. -/
def peek (data : List Nat) (offset len : Nat) : Outcome String (List Nat) :=
  if wrapAdd offset len > data.length then .err "Out of bounds"
  else if offset ≤ wrapAdd offset len then
    .ok ((data.drop offset).take (wrapAdd offset len - offset))
  else .panicked

/-- `fn peek_32_bytes` (decode.rs:184). -/
def peek_32_bytes (data : List Nat) (offset : Nat) : Outcome String (List Nat) := do
  let x ← peek data offset 32
  if 32 ≤ x.length then pure (x.take 32) else .panicked

/-- `fn as_usize` (decode.rs:192). -/
def as_usize (slice : List Nat) : Outcome String Nat :=
  if (slice.take 28).all (fun x => x == 0) then
    .ok (slice.getD 28 0 * 2 ^ 24 + slice.getD 29 0 * 2 ^ 16 +
      slice.getD 30 0 * 2 ^ 8 + slice.getD 31 0)
  else .err "Data is not a valid unsigned integer"

/-- `fn take_bytes` (decode.rs:205). -/
def take_bytes (data : List Nat) (offset len : Nat) : Outcome String (List Nat) :=
  if wrapAdd offset len > data.length then .err "Out of bounds"
  else if offset ≤ wrapAdd offset len then
    .ok ((data.drop offset).take (wrapAdd offset len - offset))
  else .panicked

/-- The `for` loop of `decode_param`'s `Array` branch. -/
def decode_param_loop (dec : List Nat → Nat → Outcome String DecodeResult) :
    Nat → List Nat → Nat → Outcome String (List Parameter)
  | 0, _, _ => pure []
  | n + 1, tail, off => do
    let res ← dec tail off
    let rest ← decode_param_loop dec n tail res.new_offset
    pure (res.parameter :: rest)

/-- The field loop of `decode_param`'s `Struct` branch. -/
def decode_param_fields (dec : ParamType → List Nat → Nat → Outcome String DecodeResult) :
    List ParamType → List Nat → Nat → Outcome String (List Parameter × Nat)
  | [], _, off => pure ([], off)
  | p :: ps, data, off => do
    let res ← dec p data off
    let (rest, fin) ← decode_param_fields dec ps data res.new_offset
    pure (res.parameter :: rest, fin)

/-- `fn decode_param` (decode.rs:58), fueled like `Decoder.decP`.  Its
`UInt`/`Int` branches call `.expect(..)` on `try_from_be_slice` (a panic on
`None`); its `String` branch uses `String::from_utf8_lossy` instead of
strict validation; everything else matches decoder.rs. -/
def decPm : Nat → ParamType → List Nat → Nat → Outcome String DecodeResult
  | 0 => fun _ _ _ => .panicked
  | f + 1 => fun t data offset =>
    match t with
    | .Address => do
        let slice ← peek_32_bytes data offset
        pure ⟨.address (slice.drop 12), wrapAdd offset 32⟩
    | .UInt _ => do
        let slice ← peek_32_bytes data offset
        match signedFromBe32 slice with
        | some value => pure ⟨.uint (signedAsUsize value), wrapAdd offset 32⟩
        | none => .panicked
    | .Int _ => do
        let slice ← peek_32_bytes data offset
        match signedFromBe32 slice with
        | some value => pure ⟨.int (signedAsIsize value), wrapAdd offset 32⟩
        | none => .panicked
    | .Bool => do
        let slice ← peek_32_bytes data offset
        pure ⟨.bool (slice.getD 31 0 == 1), wrapAdd offset 32⟩
    | .String => do
        let w ← peek_32_bytes data offset
        let dynamic_offset ← as_usize w
        let w2 ← peek_32_bytes data dynamic_offset
        let len ← as_usize w2
        let bytes ← take_bytes data (wrapAdd dynamic_offset 32) len
        pure ⟨.string (utf8Lossy bytes), wrapAdd offset 32⟩
    | .Bytes => do
        let w ← peek_32_bytes data offset
        let dynamic_offset ← as_usize w
        let w2 ← peek_32_bytes data dynamic_offset
        let len ← as_usize w2
        let bytes ← take_bytes data (wrapAdd dynamic_offset 32) len
        pure ⟨.bytes bytes, wrapAdd offset 32⟩
    | .FixedBytes len => do
        let bytes ← take_bytes data offset len
        pure ⟨.fixedBytes bytes, wrapAdd offset 32⟩
    | .Array t1 => do
        let w ← peek_32_bytes data offset
        let len_offset ← as_usize w
        let w2 ← peek_32_bytes data len_offset
        let len ← as_usize w2
        let tail_offset := wrapAdd len_offset 32
        if tail_offset ≤ data.length then do
          let tail := data.drop tail_offset
          let ps ← decode_param_loop (decPm f t1) len tail 0
          pure ⟨.array ps, wrapAdd offset 32⟩
        else .panicked
    | .Struct ts => do
        let res ← decode_param_fields (decPm f) ts data offset
        pure ⟨.struct res.1, res.2⟩

/-- `fn decode_param` (decode.rs:58). -/
def decode_param (data : List Nat) (t : ParamType) (offset : Nat) :
    Outcome String DecodeResult :=
  decPm (tySize t) t data offset

/-- The parameter loop of `fn decode_event` (decode.rs:44). -/
def decode_event_go : List ParamType → List Nat → Nat → Outcome String (List Parameter)
  | [], _, _ => pure []
  | p :: ps, data, off => do
    let res ← decode_param data p off
    let rest ← decode_event_go ps data res.new_offset
    pure (res.parameter :: rest)

/-- `fn decode_event` (decode.rs:44): sweeps the event's `data_types`
over the log's `data` bytes from offset 0. -/
def decode_event (data_types : List ParamType) (data : List Nat) :
    Outcome String (List Parameter) :=
  decode_event_go data_types data 0

end Decode

example :
    Decode.decode_event [.String] (word 0x20 ++ word 1 ++ [0x80]) =
      .ok [.string [0xEF, 0xBF, 0xBD]] := by rfl

example :
    Decoder.decode [.String] (word 0x20 ++ word 1 ++ [0x80]) =
      .err .utf8Error := by rfl

/-! ### src/blockchain/configuration.rs — type grammar and signature parser.
Strings are modelled as `List Char`. -/

/-- The literal arms of `ParamType::from_str` (configuration.rs:196), in
source order. -/
def leafType (s : List Char) : Option ParamType :=
  if s = "address".data then some .Address
  else if s = "uint256".data then some (.UInt 256)
  else if s = "uint128".data then some (.UInt 128)
  else if s = "uint64".data then some (.UInt 64)
  else if s = "uint32".data then some (.UInt 32)
  else if s = "uint16".data then some (.UInt 16)
  else if s = "uint8".data then some (.UInt 8)
  else if s = "uint".data then some (.UInt 256)
  else if s = "int256".data then some (.Int 256)
  else if s = "int128".data then some (.Int 128)
  else if s = "int64".data then some (.Int 64)
  else if s = "int32".data then some (.Int 32)
  else if s = "int16".data then some (.Int 16)
  else if s = "int8".data then some (.Int 8)
  else if s = "int".data then some (.Int 256)
  else if s = "bool".data then some .Bool
  else if s = "string".data then some .String
  else if s = "bytes".data then some .Bytes
  else if s = "bytes32".data then some (.FixedBytes 32)
  else if s = "bytes16".data then some (.FixedBytes 16)
  else if s = "bytes8".data then some (.FixedBytes 8)
  else if s = "bytes4".data then some (.FixedBytes 4)
  else if s = "bytes2".data then some (.FixedBytes 2)
  else none

/-- Rust `str::split(',')`: split at every comma; the empty string yields
one empty fragment. -/
def splitComma : List Char → List (List Char)
  | [] => [[]]
  | c :: cs =>
    match splitComma cs with
    | [] => [[]]
    | p :: ps => if c = ',' then [] :: p :: ps else (c :: p) :: ps

/-- The six ASCII characters with the Unicode `White_Space` property,
as removed by Rust `str::trim`. -/
def isRustWs (c : Char) : Bool :=
  c = ' ' || c = '\t' || c = '\n' || c = '\r' || c = '\x0b' || c = '\x0c'

/-- Rust `str::trim` (for ASCII input). -/
def trimChars (s : List Char) : List Char :=
  ((s.dropWhile isRustWs).reverse.dropWhile isRustWs).reverse

/-- The `for t in types` loop shared by `from_str`'s tuple branch,
parameterised by the fragment parser. -/
def parseFieldsWith (pf : List Char → Except Unit ParamType) :
    List (List Char) → Except Unit (List ParamType)
  | [] => .ok []
  | p :: ps => do
    let t ← pf p
    let ts ← parseFieldsWith pf ps
    pure (t :: ts)

/-- `ParamType::from_str` (configuration.rs:195), with a fuel argument for
structural recursion; every recursive call is on a strictly shorter
string, so `s.length + 1` fuel (as instantiated by `ParamType.from_str`)
always suffices.  Branch order mirrors the Rust `match`: literal arms,
then the tuple guard (`starts_with('(') && ends_with(')')`, naive comma
split, fragments trimmed), then the array guard (`ends_with("[]")`). -/
def fromStrAux : Nat → List Char → Except Unit ParamType
  | 0 => fun _ => .error ()
  | f + 1 => fun s =>
    match leafType s with
    | some t => .ok t
    | none =>
      if (s.head? == some '(') && (s.getLast? == some ')') then
        let inner := (s.drop 1).dropLast
        match parseFieldsWith (fun p => fromStrAux f (trimChars p)) (splitComma inner) with
        | .ok ts => .ok (.Struct ts)
        | .error e => .error e
      else if s.reverse.take 2 == [']', '['] then
        match fromStrAux f (s.dropLast.dropLast) with
        | .ok t => .ok (.Array t)
        | .error e => .error e
      else .error ()

/-- `ParamType::from_str` (configuration.rs:195). -/
def ParamType.from_str (s : List Char) : Except Unit ParamType :=
  fromStrAux (s.length + 1) s

/-- Rust `Vec::join(", ")` on rendered field names. -/
def joinCommaSpace : List (List Char) → List Char
  | [] => []
  | [x] => x
  | x :: xs => x ++ ',' :: ' ' :: joinCommaSpace xs

mutual

/-- `ParamType::name` (configuration.rs:245): canonical rendering.  The
width sub-matches mirror the Rust arm order, with the wildcard arms
(`UInt(_)`, `Int(_)`, `FixedBytes(_)`) as fallbacks. -/
def ParamType.name : ParamType → List Char
  | .Address => "address".data
  | .UInt w =>
    (match w with
      | 256 => "uint256"
      | 128 => "uint128"
      | 64 => "uint64"
      | 32 => "uint32"
      | 16 => "uint16"
      | 8 => "uint8"
      | _ => "uint256").data
  | .Int w =>
    (match w with
      | 256 => "int256"
      | 128 => "int128"
      | 64 => "int64"
      | 32 => "int32"
      | 16 => "int16"
      | 8 => "int8"
      | _ => "int256").data
  | .Bool => "bool".data
  | .String => "string".data
  | .Bytes => "bytes".data
  | .FixedBytes n =>
    (match n with
      | 32 => "bytes32"
      | 16 => "bytes16"
      | 8 => "bytes8"
      | 4 => "bytes4"
      | 2 => "bytes2"
      | _ => "bytes").data
  | .Array t => ParamType.name t ++ "[]".data
  | .Struct fields => '(' :: (joinCommaSpace (ParamType.nameL fields) ++ [')'])

/-- `fields.iter().map(|f| f.name())`. -/
def ParamType.nameL : List ParamType → List (List Char)
  | [] => []
  | p :: ps => ParamType.name p :: ParamType.nameL ps

end

/-- Rust regex `\w` restricted to ASCII: `[A-Za-z0-9_]`.  (The Rust regex
crate's `\w` is Unicode-aware; the theorems about the signature grammar
are stated for ASCII inputs.) -/
def isWordChar (c : Char) : Bool := c.isAlphanum || c = '_'

/-- `EventFilter::is_valid_signature_format` (configuration.rs:311): the
regex `^(\w+)\(([^)]+)\)$`.  The name capture is the maximal leading
`\w`-span (`(` is not a word character, so no backtracking alternative
exists); the second capture is non-empty and free of `)`, and the closing
`)` must end the string. -/
def is_valid_signature_format (s : List Char) : Bool :=
  match s.dropWhile isWordChar with
  | c :: rest2 =>
    (c == '(') && !(s.takeWhile isWordChar).isEmpty && (rest2.getLast? == some ')') &&
      !rest2.dropLast.isEmpty && !rest2.dropLast.contains ')'
  | [] => false

/-- The `.map(|type_str| ParamType::from_str(type_str.trim()) ...)`
collect loop of `extract_event_signature`: fragments arrive once-trimmed;
the first failure aborts with the `Unsupported data type` message built
from the trimmed fragment. -/
def parseSigTypes : List (List Char) → Except (List Char) (List ParamType)
  | [] => .ok []
  | p :: ps =>
    match ParamType.from_str (trimChars p) with
    | .ok t => do
      let ts ← parseSigTypes ps
      pure (t :: ts)
    | .error _ => .error ("Unsupported data type: ".data ++ p)

/-- `EventFilter::extract_event_signature` (configuration.rs:317). -/
def extract_event_signature (s : List Char) :
    Except (List Char) (List Char × List ParamType) :=
  if is_valid_signature_format s then
    match parseSigTypes
        ((splitComma (((s.dropWhile isWordChar).drop 1).dropLast)).map trimChars) with
    | .ok ts => .ok (s.takeWhile isWordChar, ts)
    | .error e => .error e
  else .error "Event signature format is invalid.".data

/-- UTF-8 encoding of one scalar value (Rust `str::as_bytes` per char). -/
def charUtf8 (c : Char) : List Nat :=
  let n := c.toNat
  if n < 0x80 then [n]
  else if n < 0x800 then [0xC0 + n / 64, 0x80 + n % 64]
  else if n < 0x10000 then [0xE0 + n / 4096, 0x80 + n / 64 % 64, 0x80 + n % 64]
  else [0xF0 + n / 262144, 0x80 + n / 4096 % 64, 0x80 + n / 64 % 64, 0x80 + n % 64]

/-- Rust `str::as_bytes`: the UTF-8 bytes of a string. -/
def strBytes (s : List Char) : List Nat := (s.map charUtf8).flatten

/-- `struct EventFilter` (configuration.rs:285). -/
structure EventFilter where
  signature : List Char
  hash : List Nat
  event_name : List Char
  data_types : List ParamType

/-- `EventFilter::new` (configuration.rs:293).  Keccak-256 is an external
function (`alloy::primitives::keccak256`), passed here as a parameter
`keccak`; the constructor hashes the exact bytes of the input string. -/
def EventFilter.new (keccak : List Nat → List Nat) (signature : List Char) :
    Except (List Char) EventFilter :=
  if !is_valid_signature_format signature then
    .error "Invalid event signature format.".data
  else
    match extract_event_signature signature with
    | .ok nt => .ok ⟨signature, keccak (strBytes signature), nt.1, nt.2⟩
    | .error e => .error e

example : ParamType.from_str "uint256".data = .ok (.UInt 256) := by rfl

example : ParamType.from_str "uint256[][]".data = .ok (.Array (.Array (.UInt 256))) := by rfl

example :
    ParamType.from_str "(uint256, bool)[]".data =
      .ok (.Array (.Struct [.UInt 256, .Bool])) := by rfl

example : ParamType.from_str "((uint256, bool))".data = .error () := by rfl

example : ParamType.name (.Struct [.Struct [.UInt 256, .Bool]]) = "((uint256, bool))".data := by
  rfl

example : is_valid_signature_format "0(uint256)".data = true := by rfl

example : is_valid_signature_format "Transfer()".data = false := by rfl

example :
    (EventFilter.new (fun x => x) "Transfer(address, uint256)".data).isOk = true := by rfl

/-! ### Basic arithmetic and cursor lemmas -/

theorem usize_pos : 0 < USIZE := by
  unfold USIZE; positivity

theorem wrapAdd_eq_of_lt {a b : Nat} (h : a + b < USIZE) : wrapAdd a b = a + b := by
  unfold wrapAdd
  exact Nat.mod_eq_of_lt h

theorem wrapAdd_lt_self {a b : Nat} (hb : b < USIZE) (hw : a + b ≥ USIZE) :
    wrapAdd a b < a := by
  unfold wrapAdd
  rcases Nat.lt_or_ge (a + b) (2 * USIZE) with h2 | h2
  · have : (a + b) % USIZE = a + b - USIZE := by
      rw [Nat.mod_eq_sub_mod hw, Nat.mod_eq_of_lt (by omega)]
    omega
  · have hmod := Nat.mod_lt (a + b) usize_pos
    omega

namespace Decoder

theorem peek_ok {data : List Nat} {offset len : Nat} {bs : List Nat}
    (hlen : len < USIZE) (h : peek data offset len = .ok bs) :
    offset + len ≤ data.length ∧ bs = (data.drop offset).take len := by
  unfold peek at h
  split_ifs at h with h1 h2
  all_goals try cases h
  rcases Nat.lt_or_ge (offset + len) USIZE with hw | hw
  · rw [wrapAdd_eq_of_lt hw] at h1 ⊢
    exact ⟨by omega, by rw [Nat.add_sub_cancel_left]⟩
  · exact absurd h2 (not_le.mpr (wrapAdd_lt_self hlen hw))

theorem peek_no_panic {data : List Nat} {offset len : Nat}
    (h : offset + len < USIZE) : peek data offset len ≠ .panicked := by
  unfold peek
  rw [wrapAdd_eq_of_lt h]
  split_ifs with h1 h2
  · simp
  · simp
  · exact absurd (Nat.le_add_right offset len) h2

theorem peek_32_bytes_ok {data : List Nat} {offset : Nat} {w : List Nat}
    (h : peek_32_bytes data offset = .ok w) :
    offset + 32 ≤ data.length ∧ w = (data.drop offset).take 32 ∧ w.length = 32 := by
  unfold peek_32_bytes at h
  cases hp : peek data offset 32 with
  | ok x =>
    rw [hp] at h
    simp only [bind, pure] at h
    obtain ⟨hle, hx⟩ := peek_ok (by unfold USIZE; omega) hp
    split_ifs at h with h32
    all_goals try cases h
    subst hx
    refine ⟨hle, by simp [List.take_take], ?_⟩
    simp only [List.length_take, List.length_drop]
    omega
  | err e => rw [hp] at h; cases h
  | panicked => rw [hp] at h; cases h

theorem peek_32_bytes_no_panic {data : List Nat} {offset : Nat}
    (h : offset + 32 < USIZE) : peek_32_bytes data offset ≠ .panicked := by
  unfold peek_32_bytes
  cases hp : peek data offset 32 with
  | ok x =>
    obtain ⟨hle, hx⟩ := peek_ok (by unfold USIZE; omega) hp
    have hlen : x.length = 32 := by
      subst hx
      simp [List.length_take, List.length_drop]
      omega
    simp only [bind]
    rw [if_pos (by omega)]
    simp [pure]
  | err e => simp [bind]
  | panicked => exact absurd hp (peek_no_panic h)

theorem take_bytes_ok {data : List Nat} {offset len : Nat} {bs : List Nat}
    (hlen : len < USIZE) (h : take_bytes data offset len = .ok bs) :
    offset + len ≤ data.length ∧ bs = (data.drop offset).take len := by
  unfold take_bytes at h
  split_ifs at h with h1 h2
  all_goals try cases h
  rcases Nat.lt_or_ge (offset + len) USIZE with hw | hw
  · rw [wrapAdd_eq_of_lt hw] at h1 ⊢
    exact ⟨by omega, by rw [Nat.add_sub_cancel_left]⟩
  · exact absurd h2 (not_le.mpr (wrapAdd_lt_self hlen hw))

theorem take_bytes_no_panic {data : List Nat} {offset len : Nat}
    (h : offset + len < USIZE) : take_bytes data offset len ≠ .panicked := by
  unfold take_bytes
  rw [wrapAdd_eq_of_lt h]
  split_ifs with h1 h2
  · simp
  · simp
  · exact absurd (Nat.le_add_right offset len) h2

theorem as_usize_ok_lt {slice : List Nat} {v : Nat}
    (hb : ∀ b ∈ slice, b ≤ 255) (h : as_usize slice = .ok v) : v < 2 ^ 32 := by
  unfold as_usize at h
  split_ifs at h with hz
  · cases h
    have g : ∀ i, slice.getD i 0 ≤ 255 := by
      intro i
      rcases Nat.lt_or_ge i slice.length with hi | hi
      · rw [List.getD_eq_getElem _ _ hi]
        exact hb _ (List.getElem_mem hi)
      · rw [List.getD_eq_default _ _ hi]
        omega
    have g28 := g 28
    have g29 := g 29
    have g30 := g 30
    have g31 := g 31
    have : (2 : Nat) ^ 32 = 4294967296 := by norm_num
    omega

theorem as_usize_no_panic (slice : List Nat) : as_usize slice ≠ .panicked := by
  intro h
  unfold as_usize at h
  split_ifs at h

end Decoder

@[simp] theorem Outcome.ok_bind {ε α β : Type} (a : α) (f : α → Outcome ε β) :
    (Outcome.ok a : Outcome ε α) >>= f = f a := rfl

@[simp] theorem Outcome.err_bind {ε α β : Type} (e : ε) (f : α → Outcome ε β) :
    (Outcome.err e : Outcome ε α) >>= f = .err e := rfl

@[simp] theorem Outcome.panicked_bind {ε α β : Type} (f : α → Outcome ε β) :
    (Outcome.panicked : Outcome ε α) >>= f = .panicked := rfl

@[simp] theorem Outcome.pure_eq {ε α : Type} (a : α) :
    (pure a : Outcome ε α) = .ok a := rfl

theorem bytes_le_sub {data : List Nat} (hb : ∀ b ∈ data, b ≤ 255) (o n : Nat) :
    ∀ b ∈ (data.drop o).take n, b ≤ 255 :=
  fun b hmem => hb b (List.drop_subset o data (List.take_subset n _ hmem))

theorem tySize_pos : ∀ t, 1 ≤ tySize t := by
  intro t
  cases t <;> simp [tySize]

namespace Decoder

/-- The invariant carried through the decoder: no panic, and a successful
step leaves the cursor at most one word past the end of the buffer. -/
def goodOut (L : Nat) (out : Outcome DecodeError DecodeResult) : Prop :=
  out ≠ .panicked ∧ ∀ r, out = .ok r → r.new_offset ≤ L + 32

theorem decode_address_good {data : List Nat} {offset : Nat}
    (hL : data.length ≤ 2 ^ 63) (hoff : offset ≤ data.length + 32) :
    goodOut data.length (decode_address data offset) := by
  have hus : offset + 32 < USIZE := by unfold USIZE at *; omega
  unfold goodOut decode_address
  cases hp : peek_32_bytes data offset with
  | ok w =>
    obtain ⟨hle, -, -⟩ := peek_32_bytes_ok hp
    refine ⟨by simp, ?_⟩
    intro r hr
    simp only [Outcome.ok_bind, Outcome.pure_eq] at hr
    cases hr
    simp only [wrapAdd_eq_of_lt hus]
    omega
  | err e => exact ⟨by simp, by intro r hr; simp at hr⟩
  | panicked => exact absurd hp (peek_32_bytes_no_panic hus)

theorem decode_uint_good {data : List Nat} {offset : Nat}
    (hL : data.length ≤ 2 ^ 63) (hoff : offset ≤ data.length + 32) :
    goodOut data.length (decode_uint data offset) := by
  have hus : offset + 32 < USIZE := by unfold USIZE at *; omega
  unfold goodOut decode_uint
  cases hp : peek_32_bytes data offset with
  | ok w =>
    obtain ⟨hle, -, -⟩ := peek_32_bytes_ok hp
    simp only [Outcome.ok_bind]
    cases hs : signedFromBe32 w with
    | some v =>
      refine ⟨by simp, ?_⟩
      intro r hr
      simp only [Outcome.pure_eq] at hr
      cases hr
      simp only [wrapAdd_eq_of_lt hus]
      omega
    | none => exact ⟨by simp, by intro r hr; simp at hr⟩
  | err e => exact ⟨by simp, by intro r hr; simp at hr⟩
  | panicked => exact absurd hp (peek_32_bytes_no_panic hus)

theorem decode_int_good {data : List Nat} {offset : Nat}
    (hL : data.length ≤ 2 ^ 63) (hoff : offset ≤ data.length + 32) :
    goodOut data.length (decode_int data offset) := by
  have hus : offset + 32 < USIZE := by unfold USIZE at *; omega
  unfold goodOut decode_int
  cases hp : peek_32_bytes data offset with
  | ok w =>
    obtain ⟨hle, -, -⟩ := peek_32_bytes_ok hp
    simp only [Outcome.ok_bind]
    cases hs : signedFromBe32 w with
    | some v =>
      refine ⟨by simp, ?_⟩
      intro r hr
      simp only [Outcome.pure_eq] at hr
      cases hr
      simp only [wrapAdd_eq_of_lt hus]
      omega
    | none => exact ⟨by simp, by intro r hr; simp at hr⟩
  | err e => exact ⟨by simp, by intro r hr; simp at hr⟩
  | panicked => exact absurd hp (peek_32_bytes_no_panic hus)

theorem decode_bool_good {data : List Nat} {offset : Nat}
    (hL : data.length ≤ 2 ^ 63) (hoff : offset ≤ data.length + 32) :
    goodOut data.length (decode_bool data offset) := by
  have hus : offset + 32 < USIZE := by unfold USIZE at *; omega
  unfold goodOut decode_bool
  cases hp : peek_32_bytes data offset with
  | ok w =>
    obtain ⟨hle, -, -⟩ := peek_32_bytes_ok hp
    refine ⟨by simp, ?_⟩
    intro r hr
    simp only [Outcome.ok_bind, Outcome.pure_eq] at hr
    cases hr
    simp only [wrapAdd_eq_of_lt hus]
    omega
  | err e => exact ⟨by simp, by intro r hr; simp at hr⟩
  | panicked => exact absurd hp (peek_32_bytes_no_panic hus)

theorem decode_fixed_bytes_good {data : List Nat} {offset n : Nat} (hn : n ≤ 32)
    (hL : data.length ≤ 2 ^ 63) (hoff : offset ≤ data.length + 32) :
    goodOut data.length (decode_fixed_bytes data offset n) := by
  have hus : offset + n < USIZE := by unfold USIZE at *; omega
  have hus32 : offset + 32 < USIZE := by unfold USIZE at *; omega
  unfold goodOut decode_fixed_bytes
  cases hp : take_bytes data offset n with
  | ok bs =>
    obtain ⟨hle, -⟩ := take_bytes_ok (by unfold USIZE at *; omega) hp
    refine ⟨by simp, ?_⟩
    intro r hr
    simp only [Outcome.ok_bind, Outcome.pure_eq] at hr
    cases hr
    simp only [wrapAdd_eq_of_lt hus32]
    omega
  | err e => exact ⟨by simp, by intro r hr; simp at hr⟩
  | panicked => exact absurd hp (take_bytes_no_panic hus)

theorem decode_string_good {data : List Nat} {offset : Nat}
    (hb : ∀ b ∈ data, b ≤ 255)
    (hL : data.length ≤ 2 ^ 63) (hoff : offset ≤ data.length + 32) :
    goodOut data.length (decode_string data offset) := by
  have hus : offset + 32 < USIZE := by unfold USIZE at *; omega
  unfold goodOut decode_string
  cases hp : peek_32_bytes data offset with
  | ok w =>
    obtain ⟨hle, hw, -⟩ := peek_32_bytes_ok hp
    have hwb : ∀ b ∈ w, b ≤ 255 := hw ▸ bytes_le_sub hb offset 32
    simp only [Outcome.ok_bind]
    cases hd : as_usize w with
    | ok dyn =>
      have hdyn : dyn < 2 ^ 32 := as_usize_ok_lt hwb hd
      have hdus : dyn + 32 < USIZE := by unfold USIZE at *; omega
      simp only [Outcome.ok_bind]
      cases hp2 : peek_32_bytes data dyn with
      | ok w2 =>
        obtain ⟨-, hw2, -⟩ := peek_32_bytes_ok hp2
        have hw2b : ∀ b ∈ w2, b ≤ 255 := hw2 ▸ bytes_le_sub hb dyn 32
        simp only [Outcome.ok_bind]
        cases hl : as_usize w2 with
        | ok len =>
          have hlen : len < 2 ^ 32 := as_usize_ok_lt hw2b hl
          have htus : wrapAdd dyn 32 + len < USIZE := by
            rw [wrapAdd_eq_of_lt hdus]
            unfold USIZE at *
            omega
          simp only [Outcome.ok_bind]
          cases ht : take_bytes data (wrapAdd dyn 32) len with
          | ok bs =>
            simp only [Outcome.ok_bind]
            split_ifs with hv
            · refine ⟨by simp, ?_⟩
              intro r hr
              simp only [Outcome.pure_eq] at hr
              cases hr
              simp only [wrapAdd_eq_of_lt hus]
              omega
            · exact ⟨by simp, by intro r hr; simp at hr⟩
          | err e => exact ⟨by simp, by intro r hr; simp at hr⟩
          | panicked => exact absurd ht (take_bytes_no_panic htus)
        | err e => exact ⟨by simp, by intro r hr; simp at hr⟩
        | panicked => exact absurd hl (as_usize_no_panic w2)
      | err e => exact ⟨by simp, by intro r hr; simp at hr⟩
      | panicked => exact absurd hp2 (peek_32_bytes_no_panic hdus)
    | err e => exact ⟨by simp, by intro r hr; simp at hr⟩
    | panicked => exact absurd hd (as_usize_no_panic w)
  | err e => exact ⟨by simp, by intro r hr; simp at hr⟩
  | panicked => exact absurd hp (peek_32_bytes_no_panic hus)

theorem decode_bytes_good {data : List Nat} {offset : Nat}
    (hb : ∀ b ∈ data, b ≤ 255)
    (hL : data.length ≤ 2 ^ 63) (hoff : offset ≤ data.length + 32) :
    goodOut data.length (decode_bytes data offset) := by
  have hus : offset + 32 < USIZE := by unfold USIZE at *; omega
  unfold goodOut decode_bytes
  cases hp : peek_32_bytes data offset with
  | ok w =>
    obtain ⟨hle, hw, -⟩ := peek_32_bytes_ok hp
    have hwb : ∀ b ∈ w, b ≤ 255 := hw ▸ bytes_le_sub hb offset 32
    simp only [Outcome.ok_bind]
    cases hd : as_usize w with
    | ok dyn =>
      have hdyn : dyn < 2 ^ 32 := as_usize_ok_lt hwb hd
      have hdus : dyn + 32 < USIZE := by unfold USIZE at *; omega
      simp only [Outcome.ok_bind]
      cases hp2 : peek_32_bytes data dyn with
      | ok w2 =>
        obtain ⟨-, hw2, -⟩ := peek_32_bytes_ok hp2
        have hw2b : ∀ b ∈ w2, b ≤ 255 := hw2 ▸ bytes_le_sub hb dyn 32
        simp only [Outcome.ok_bind]
        cases hl : as_usize w2 with
        | ok len =>
          have hlen : len < 2 ^ 32 := as_usize_ok_lt hw2b hl
          have htus : wrapAdd dyn 32 + len < USIZE := by
            rw [wrapAdd_eq_of_lt hdus]
            unfold USIZE at *
            omega
          simp only [Outcome.ok_bind]
          cases ht : take_bytes data (wrapAdd dyn 32) len with
          | ok bs =>
            refine ⟨by simp, ?_⟩
            intro r hr
            simp only [Outcome.ok_bind, Outcome.pure_eq] at hr
            cases hr
            simp only [wrapAdd_eq_of_lt hus]
            omega
          | err e => exact ⟨by simp, by intro r hr; simp at hr⟩
          | panicked => exact absurd ht (take_bytes_no_panic htus)
        | err e => exact ⟨by simp, by intro r hr; simp at hr⟩
        | panicked => exact absurd hl (as_usize_no_panic w2)
      | err e => exact ⟨by simp, by intro r hr; simp at hr⟩
      | panicked => exact absurd hp2 (peek_32_bytes_no_panic hdus)
    | err e => exact ⟨by simp, by intro r hr; simp at hr⟩
    | panicked => exact absurd hd (as_usize_no_panic w)
  | err e => exact ⟨by simp, by intro r hr; simp at hr⟩
  | panicked => exact absurd hp (peek_32_bytes_no_panic hus)

end Decoder

mutual

/-- The spec's data-model invariant on type terms (§3): integer widths in
`{8,16,32,64,128,256}` and fixed-bytes sizes in `{2,4,8,16,32}`. -/
def wfType : ParamType → Bool
  | .Address => true
  | .UInt w => w == 8 || w == 16 || w == 32 || w == 64 || w == 128 || w == 256
  | .Int w => w == 8 || w == 16 || w == 32 || w == 64 || w == 128 || w == 256
  | .Bool => true
  | .String => true
  | .Bytes => true
  | .FixedBytes n => n == 2 || n == 4 || n == 8 || n == 16 || n == 32
  | .Array t => wfType t
  | .Struct ts => wfTypeL ts

/-- `wfType` on every element of a list. -/
def wfTypeL : List ParamType → Bool
  | [] => true
  | p :: ps => wfType p && wfTypeL ps

end

theorem tySizeL_le_of_mem {p : ParamType} : ∀ {ps : List ParamType}, p ∈ ps →
    tySize p ≤ tySizeL ps := by
  intro ps
  induction ps with
  | nil => intro h; cases h
  | cons q qs ih =>
    intro h
    simp only [tySizeL]
    rcases List.mem_cons.mp h with rfl | hmem
    · omega
    · have := ih hmem
      omega

theorem wfTypeL_mem {p : ParamType} : ∀ {ps : List ParamType}, wfTypeL ps = true →
    p ∈ ps → wfType p = true := by
  intro ps
  induction ps with
  | nil => intro _ h; cases h
  | cons q qs ih =>
    intro hwf h
    simp only [wfTypeL, Bool.and_eq_true] at hwf
    rcases List.mem_cons.mp h with rfl | hmem
    · exact hwf.1
    · exact ih hwf.2 hmem

namespace Decoder

theorem decode_array_loop_good {dec : List Nat → Nat → Outcome DecodeError DecodeResult}
    {tail : List Nat}
    (hdec : ∀ off, off ≤ tail.length + 32 → goodOut tail.length (dec tail off)) :
    ∀ n off, off ≤ tail.length + 32 →
      decode_array_loop dec n tail off ≠ .panicked := by
  intro n
  induction n with
  | zero => intro off hoff; simp [decode_array_loop]
  | succ n ih =>
    intro off hoff
    unfold decode_array_loop
    cases hr : dec tail off with
    | ok r =>
      simp only [Outcome.ok_bind]
      cases hrest : decode_array_loop dec n tail r.new_offset with
      | ok ps => simp
      | err e => simp
      | panicked =>
        exact absurd hrest (ih r.new_offset ((hdec off hoff).2 r hr))
    | err e => simp
    | panicked => exact absurd hr (hdec off hoff).1

theorem decode_struct_fields_good
    {dec : ParamType → List Nat → Nat → Outcome DecodeError DecodeResult}
    {data : List Nat} :
    ∀ {ps : List ParamType},
      (∀ p ∈ ps, ∀ off, off ≤ data.length + 32 → goodOut data.length (dec p data off)) →
      ∀ off, off ≤ data.length + 32 →
        decode_struct_fields dec ps data off ≠ .panicked ∧
          ∀ pr, decode_struct_fields dec ps data off = .ok pr →
            pr.2 ≤ data.length + 32 := by
  intro ps
  induction ps with
  | nil =>
    intro _ off hoff
    refine ⟨by simp [decode_struct_fields], ?_⟩
    intro pr hpr
    simp only [decode_struct_fields, Outcome.pure_eq] at hpr
    cases hpr
    exact hoff
  | cons p ps ih =>
    intro hdec off hoff
    have hphead := hdec p (List.mem_cons_self p ps) off hoff
    have htail := fun q hq => hdec q (List.mem_cons_of_mem p hq)
    unfold decode_struct_fields
    cases hr : dec p data off with
    | ok r =>
      simp only [Outcome.ok_bind]
      have hnew := hphead.2 r hr
      obtain ⟨hnp, hok⟩ := ih htail r.new_offset hnew
      cases hrest : decode_struct_fields dec ps data r.new_offset with
      | ok pr =>
        refine ⟨by simp, ?_⟩
        intro pr2 hpr2
        simp only [Outcome.ok_bind, Outcome.pure_eq] at hpr2
        cases hpr2
        exact hok pr hrest
      | err e => exact ⟨by simp, by intro pr hpr; simp at hpr⟩
      | panicked => exact absurd hrest hnp
    | err e => exact ⟨by simp, by intro pr hpr; simp at hpr⟩
    | panicked => exact absurd hr hphead.1

theorem decP_good (f : Nat) : ∀ t data offset, tySize t ≤ f → wfType t = true →
    (∀ b ∈ data, b ≤ 255) → data.length ≤ 2 ^ 63 → offset ≤ data.length + 32 →
    goodOut data.length (decP f t data offset) := by
  induction f with
  | zero =>
    intro t data offset hf _ _ _ _
    have := tySize_pos t
    omega
  | succ f ih =>
    intro t data offset hf hwf hb hL hoff
    cases t with
    | Address => simpa only [decP] using decode_address_good hL hoff
    | UInt w => simpa only [decP] using decode_uint_good hL hoff
    | Int w => simpa only [decP] using decode_int_good hL hoff
    | Bool => simpa only [decP] using decode_bool_good hL hoff
    | String => simpa only [decP] using decode_string_good hb hL hoff
    | Bytes => simpa only [decP] using decode_bytes_good hb hL hoff
    | FixedBytes n =>
      have hn : n ≤ 32 := by
        simp only [wfType, Bool.or_eq_true, beq_iff_eq] at hwf
        omega
      simpa only [decP] using decode_fixed_bytes_good hn hL hoff
    | Array t1 =>
      have hus : offset + 32 < USIZE := by unfold USIZE at *; omega
      have hwf1 : wfType t1 = true := by simpa only [wfType] using hwf
      have hf1 : tySize t1 ≤ f := by simp only [tySize] at hf; omega
      simp only [decP]
      unfold goodOut
      cases hp : peek_32_bytes data offset with
      | ok w =>
        obtain ⟨hle, hw, -⟩ := peek_32_bytes_ok hp
        have hwb : ∀ b ∈ w, b ≤ 255 := hw ▸ bytes_le_sub hb offset 32
        simp only [Outcome.ok_bind]
        cases hd : as_usize w with
        | ok len_offset =>
          have hdyn : len_offset < 2 ^ 32 := as_usize_ok_lt hwb hd
          have hdus : len_offset + 32 < USIZE := by unfold USIZE at *; omega
          simp only [Outcome.ok_bind]
          cases hp2 : peek_32_bytes data len_offset with
          | ok w2 =>
            obtain ⟨hle2, hw2, -⟩ := peek_32_bytes_ok hp2
            have hw2b : ∀ b ∈ w2, b ≤ 255 := hw2 ▸ bytes_le_sub hb len_offset 32
            simp only [Outcome.ok_bind]
            cases hl : as_usize w2 with
            | ok len =>
              simp only [Outcome.ok_bind]
              rw [if_pos (by rw [wrapAdd_eq_of_lt hdus]; omega)]
              have htl : (data.drop (wrapAdd len_offset 32)).length ≤ data.length := by
                simp [List.length_drop]
              have htb : ∀ b ∈ data.drop (wrapAdd len_offset 32), b ≤ 255 :=
                fun b hmem => hb b (List.drop_subset _ data hmem)
              have hdecgood : ∀ off,
                  off ≤ (data.drop (wrapAdd len_offset 32)).length + 32 →
                  goodOut (data.drop (wrapAdd len_offset 32)).length
                    (decP f t1 (data.drop (wrapAdd len_offset 32)) off) :=
                fun off hoff2 => ih t1 _ off hf1 hwf1 htb (by omega) hoff2
              cases hloop : decode_array_loop (decP f t1) len
                  (data.drop (wrapAdd len_offset 32)) 0 with
              | ok ps =>
                refine ⟨by simp, ?_⟩
                intro r hr
                simp only [Outcome.ok_bind, Outcome.pure_eq] at hr
                cases hr
                simp only [wrapAdd_eq_of_lt hus]
                omega
              | err e => exact ⟨by simp, by intro r hr; simp at hr⟩
              | panicked =>
                exact absurd hloop (decode_array_loop_good hdecgood len 0 (by omega))
            | err e => exact ⟨by simp, by intro r hr; simp at hr⟩
            | panicked => exact absurd hl (as_usize_no_panic w2)
          | err e => exact ⟨by simp, by intro r hr; simp at hr⟩
          | panicked => exact absurd hp2 (peek_32_bytes_no_panic hdus)
        | err e => exact ⟨by simp, by intro r hr; simp at hr⟩
        | panicked => exact absurd hd (as_usize_no_panic w)
      | err e => exact ⟨by simp, by intro r hr; simp at hr⟩
      | panicked => exact absurd hp (peek_32_bytes_no_panic hus)
    | Struct ts =>
      have hwfl : wfTypeL ts = true := by simpa only [wfType] using hwf
      have hfl : tySizeL ts ≤ f := by simp only [tySize] at hf; omega
      have hdecgood : ∀ p ∈ ts, ∀ off, off ≤ data.length + 32 →
          goodOut data.length (decP f p data off) :=
        fun p hp off hoff2 =>
          ih p data off (le_trans (tySizeL_le_of_mem hp) hfl)
            (wfTypeL_mem hwfl hp) hb hL hoff2
      simp only [decP]
      unfold goodOut
      obtain ⟨hnp, hok⟩ := decode_struct_fields_good hdecgood offset hoff
      cases hres : decode_struct_fields (decP f) ts data offset with
      | ok pr =>
        refine ⟨by simp, ?_⟩
        intro r hr
        simp only [Outcome.ok_bind, Outcome.pure_eq] at hr
        cases hr
        exact hok pr hres
      | err e => exact ⟨by simp, by intro r hr; simp at hr⟩
      | panicked => exact absurd hres hnp

end Decoder

theorem signedFromBe32_eq_some {l : List Nat} (h : l.length ≤ 32) :
    signedFromBe32 l =
      some (if beNat l < 2 ^ 255 then (beNat l : Int) else (beNat l : Int) - 2 ^ 256) := by
  unfold signedFromBe32
  rw [if_pos h]

namespace Decode

theorem peek_ok_d2 {data : List Nat} {offset len : Nat} {bs : List Nat}
    (hlen : len < USIZE) (h : peek data offset len = .ok bs) :
    offset + len ≤ data.length ∧ bs = (data.drop offset).take len := by
  unfold peek at h
  split_ifs at h with h1 h2
  all_goals try cases h
  rcases Nat.lt_or_ge (offset + len) USIZE with hw | hw
  · rw [wrapAdd_eq_of_lt hw] at h1 ⊢
    exact ⟨by omega, by rw [Nat.add_sub_cancel_left]⟩
  · exact absurd h2 (not_le.mpr (wrapAdd_lt_self hlen hw))

theorem peek_no_panic_d2 {data : List Nat} {offset len : Nat}
    (h : offset + len < USIZE) : peek data offset len ≠ .panicked := by
  unfold peek
  rw [wrapAdd_eq_of_lt h]
  split_ifs with h1 h2
  · simp
  · simp
  · exact absurd (Nat.le_add_right offset len) h2

theorem peek_32_bytes_ok_d2 {data : List Nat} {offset : Nat} {w : List Nat}
    (h : peek_32_bytes data offset = .ok w) :
    offset + 32 ≤ data.length ∧ w = (data.drop offset).take 32 ∧ w.length = 32 := by
  unfold peek_32_bytes at h
  cases hp : peek data offset 32 with
  | ok x =>
    rw [hp] at h
    simp only [Outcome.ok_bind] at h
    obtain ⟨hle, hx⟩ := peek_ok_d2 (by unfold USIZE; omega) hp
    split_ifs at h with h32
    all_goals try cases h
    subst hx
    refine ⟨hle, by simp [List.take_take], ?_⟩
    simp only [List.length_take, List.length_drop]
    omega
  | err e => rw [hp] at h; cases h
  | panicked => rw [hp] at h; cases h

theorem peek_32_bytes_no_panic_d2 {data : List Nat} {offset : Nat}
    (h : offset + 32 < USIZE) : peek_32_bytes data offset ≠ .panicked := by
  unfold peek_32_bytes
  cases hp : peek data offset 32 with
  | ok x =>
    obtain ⟨hle, hx⟩ := peek_ok_d2 (by unfold USIZE; omega) hp
    have hlen : x.length = 32 := by
      subst hx
      simp only [List.length_take, List.length_drop]
      omega
    simp only [Outcome.ok_bind]
    rw [if_pos (by omega)]
    simp
  | err e => simp
  | panicked => exact absurd hp (peek_no_panic_d2 h)

theorem take_bytes_ok_d2 {data : List Nat} {offset len : Nat} {bs : List Nat}
    (hlen : len < USIZE) (h : take_bytes data offset len = .ok bs) :
    offset + len ≤ data.length ∧ bs = (data.drop offset).take len := by
  unfold take_bytes at h
  split_ifs at h with h1 h2
  all_goals try cases h
  rcases Nat.lt_or_ge (offset + len) USIZE with hw | hw
  · rw [wrapAdd_eq_of_lt hw] at h1 ⊢
    exact ⟨by omega, by rw [Nat.add_sub_cancel_left]⟩
  · exact absurd h2 (not_le.mpr (wrapAdd_lt_self hlen hw))

theorem take_bytes_no_panic_d2 {data : List Nat} {offset len : Nat}
    (h : offset + len < USIZE) : take_bytes data offset len ≠ .panicked := by
  unfold take_bytes
  rw [wrapAdd_eq_of_lt h]
  split_ifs with h1 h2
  · simp
  · simp
  · exact absurd (Nat.le_add_right offset len) h2

theorem as_usize_ok_lt_d2 {slice : List Nat} {v : Nat}
    (hb : ∀ b ∈ slice, b ≤ 255) (h : as_usize slice = .ok v) : v < 2 ^ 32 := by
  unfold as_usize at h
  split_ifs at h with hz
  · cases h
    have g : ∀ i, slice.getD i 0 ≤ 255 := by
      intro i
      rcases Nat.lt_or_ge i slice.length with hi | hi
      · rw [List.getD_eq_getElem _ _ hi]
        exact hb _ (List.getElem_mem hi)
      · rw [List.getD_eq_default _ _ hi]
        omega
    have g28 := g 28
    have g29 := g 29
    have g30 := g 30
    have g31 := g 31
    have : (2 : Nat) ^ 32 = 4294967296 := by norm_num
    omega

theorem as_usize_no_panic_d2 (slice : List Nat) : as_usize slice ≠ .panicked := by
  intro h
  unfold as_usize at h
  split_ifs at h

/-- The invariant carried through decode.rs's decoder, as in
`Decoder.goodOut`. -/
def goodOut (L : Nat) (out : Outcome String DecodeResult) : Prop :=
  out ≠ .panicked ∧ ∀ r, out = .ok r → r.new_offset ≤ L + 32

theorem decode_param_loop_good {dec : List Nat → Nat → Outcome String DecodeResult}
    {tail : List Nat}
    (hdec : ∀ off, off ≤ tail.length + 32 → goodOut tail.length (dec tail off)) :
    ∀ n off, off ≤ tail.length + 32 →
      decode_param_loop dec n tail off ≠ .panicked := by
  intro n
  induction n with
  | zero => intro off hoff; simp [decode_param_loop]
  | succ n ih =>
    intro off hoff
    unfold decode_param_loop
    cases hr : dec tail off with
    | ok r =>
      simp only [Outcome.ok_bind]
      cases hrest : decode_param_loop dec n tail r.new_offset with
      | ok ps => simp
      | err e => simp
      | panicked =>
        exact absurd hrest (ih r.new_offset ((hdec off hoff).2 r hr))
    | err e => simp
    | panicked => exact absurd hr (hdec off hoff).1

theorem decode_param_fields_good
    {dec : ParamType → List Nat → Nat → Outcome String DecodeResult}
    {data : List Nat} :
    ∀ {ps : List ParamType},
      (∀ p ∈ ps, ∀ off, off ≤ data.length + 32 → goodOut data.length (dec p data off)) →
      ∀ off, off ≤ data.length + 32 →
        decode_param_fields dec ps data off ≠ .panicked ∧
          ∀ pr, decode_param_fields dec ps data off = .ok pr →
            pr.2 ≤ data.length + 32 := by
  intro ps
  induction ps with
  | nil =>
    intro _ off hoff
    refine ⟨by simp [decode_param_fields], ?_⟩
    intro pr hpr
    simp only [decode_param_fields, Outcome.pure_eq] at hpr
    cases hpr
    exact hoff
  | cons p ps ih =>
    intro hdec off hoff
    have hphead := hdec p (List.mem_cons_self p ps) off hoff
    have htail := fun q hq => hdec q (List.mem_cons_of_mem p hq)
    unfold decode_param_fields
    cases hr : dec p data off with
    | ok r =>
      simp only [Outcome.ok_bind]
      have hnew := hphead.2 r hr
      obtain ⟨hnp, hok⟩ := ih htail r.new_offset hnew
      cases hrest : decode_param_fields dec ps data r.new_offset with
      | ok pr =>
        refine ⟨by simp, ?_⟩
        intro pr2 hpr2
        simp only [Outcome.ok_bind, Outcome.pure_eq] at hpr2
        cases hpr2
        exact hok pr hrest
      | err e => exact ⟨by simp, by intro pr hpr; simp at hpr⟩
      | panicked => exact absurd hrest hnp
    | err e => exact ⟨by simp, by intro pr hpr; simp at hpr⟩
    | panicked => exact absurd hr hphead.1

end Decode

namespace Decode

theorem decPm_good (f : Nat) : ∀ t data offset, tySize t ≤ f → wfType t = true →
    (∀ b ∈ data, b ≤ 255) → data.length ≤ 2 ^ 63 → offset ≤ data.length + 32 →
    goodOut data.length (decPm f t data offset) := by
  induction f with
  | zero =>
    intro t data offset hf _ _ _ _
    have := tySize_pos t
    omega
  | succ f ih =>
    intro t data offset hf hwf hb hL hoff
    have hus : offset + 32 < USIZE := by unfold USIZE at *; omega
    cases t with
    | Address =>
      simp only [decPm]
      unfold goodOut
      cases hp : peek_32_bytes data offset with
      | ok w =>
        obtain ⟨hle, -, -⟩ := peek_32_bytes_ok_d2 hp
        refine ⟨by simp, ?_⟩
        intro r hr
        simp only [Outcome.ok_bind, Outcome.pure_eq] at hr
        cases hr
        simp only [wrapAdd_eq_of_lt hus]
        omega
      | err e => exact ⟨by simp, by intro r hr; simp at hr⟩
      | panicked => exact absurd hp (peek_32_bytes_no_panic_d2 hus)
    | UInt w0 =>
      simp only [decPm]
      unfold goodOut
      cases hp : peek_32_bytes data offset with
      | ok w =>
        obtain ⟨hle, -, hwl⟩ := peek_32_bytes_ok_d2 hp
        simp only [Outcome.ok_bind]
        rw [signedFromBe32_eq_some (by omega)]
        refine ⟨by simp, ?_⟩
        intro r hr
        simp only [Outcome.pure_eq] at hr
        cases hr
        simp only [wrapAdd_eq_of_lt hus]
        omega
      | err e => exact ⟨by simp, by intro r hr; simp at hr⟩
      | panicked => exact absurd hp (peek_32_bytes_no_panic_d2 hus)
    | Int w0 =>
      simp only [decPm]
      unfold goodOut
      cases hp : peek_32_bytes data offset with
      | ok w =>
        obtain ⟨hle, -, hwl⟩ := peek_32_bytes_ok_d2 hp
        simp only [Outcome.ok_bind]
        rw [signedFromBe32_eq_some (by omega)]
        refine ⟨by simp, ?_⟩
        intro r hr
        simp only [Outcome.pure_eq] at hr
        cases hr
        simp only [wrapAdd_eq_of_lt hus]
        omega
      | err e => exact ⟨by simp, by intro r hr; simp at hr⟩
      | panicked => exact absurd hp (peek_32_bytes_no_panic_d2 hus)
    | Bool =>
      simp only [decPm]
      unfold goodOut
      cases hp : peek_32_bytes data offset with
      | ok w =>
        obtain ⟨hle, -, -⟩ := peek_32_bytes_ok_d2 hp
        refine ⟨by simp, ?_⟩
        intro r hr
        simp only [Outcome.ok_bind, Outcome.pure_eq] at hr
        cases hr
        simp only [wrapAdd_eq_of_lt hus]
        omega
      | err e => exact ⟨by simp, by intro r hr; simp at hr⟩
      | panicked => exact absurd hp (peek_32_bytes_no_panic_d2 hus)
    | String =>
      simp only [decPm]
      unfold goodOut
      cases hp : peek_32_bytes data offset with
      | ok w =>
        obtain ⟨hle, hw, -⟩ := peek_32_bytes_ok_d2 hp
        have hwb : ∀ b ∈ w, b ≤ 255 := hw ▸ bytes_le_sub hb offset 32
        simp only [Outcome.ok_bind]
        cases hd : as_usize w with
        | ok dyn =>
          have hdyn : dyn < 2 ^ 32 := as_usize_ok_lt_d2 hwb hd
          have hdus : dyn + 32 < USIZE := by unfold USIZE at *; omega
          simp only [Outcome.ok_bind]
          cases hp2 : peek_32_bytes data dyn with
          | ok w2 =>
            obtain ⟨-, hw2, -⟩ := peek_32_bytes_ok_d2 hp2
            have hw2b : ∀ b ∈ w2, b ≤ 255 := hw2 ▸ bytes_le_sub hb dyn 32
            simp only [Outcome.ok_bind]
            cases hl : as_usize w2 with
            | ok len =>
              have hlen : len < 2 ^ 32 := as_usize_ok_lt_d2 hw2b hl
              have htus : wrapAdd dyn 32 + len < USIZE := by
                rw [wrapAdd_eq_of_lt hdus]
                unfold USIZE at *
                omega
              simp only [Outcome.ok_bind]
              cases ht : take_bytes data (wrapAdd dyn 32) len with
              | ok bs =>
                refine ⟨by simp, ?_⟩
                intro r hr
                simp only [Outcome.ok_bind, Outcome.pure_eq] at hr
                cases hr
                simp only [wrapAdd_eq_of_lt hus]
                omega
              | err e => exact ⟨by simp, by intro r hr; simp at hr⟩
              | panicked => exact absurd ht (take_bytes_no_panic_d2 htus)
            | err e => exact ⟨by simp, by intro r hr; simp at hr⟩
            | panicked => exact absurd hl (as_usize_no_panic_d2 w2)
          | err e => exact ⟨by simp, by intro r hr; simp at hr⟩
          | panicked => exact absurd hp2 (peek_32_bytes_no_panic_d2 hdus)
        | err e => exact ⟨by simp, by intro r hr; simp at hr⟩
        | panicked => exact absurd hd (as_usize_no_panic_d2 w)
      | err e => exact ⟨by simp, by intro r hr; simp at hr⟩
      | panicked => exact absurd hp (peek_32_bytes_no_panic_d2 hus)
    | Bytes =>
      simp only [decPm]
      unfold goodOut
      cases hp : peek_32_bytes data offset with
      | ok w =>
        obtain ⟨hle, hw, -⟩ := peek_32_bytes_ok_d2 hp
        have hwb : ∀ b ∈ w, b ≤ 255 := hw ▸ bytes_le_sub hb offset 32
        simp only [Outcome.ok_bind]
        cases hd : as_usize w with
        | ok dyn =>
          have hdyn : dyn < 2 ^ 32 := as_usize_ok_lt_d2 hwb hd
          have hdus : dyn + 32 < USIZE := by unfold USIZE at *; omega
          simp only [Outcome.ok_bind]
          cases hp2 : peek_32_bytes data dyn with
          | ok w2 =>
            obtain ⟨-, hw2, -⟩ := peek_32_bytes_ok_d2 hp2
            have hw2b : ∀ b ∈ w2, b ≤ 255 := hw2 ▸ bytes_le_sub hb dyn 32
            simp only [Outcome.ok_bind]
            cases hl : as_usize w2 with
            | ok len =>
              have hlen : len < 2 ^ 32 := as_usize_ok_lt_d2 hw2b hl
              have htus : wrapAdd dyn 32 + len < USIZE := by
                rw [wrapAdd_eq_of_lt hdus]
                unfold USIZE at *
                omega
              simp only [Outcome.ok_bind]
              cases ht : take_bytes data (wrapAdd dyn 32) len with
              | ok bs =>
                refine ⟨by simp, ?_⟩
                intro r hr
                simp only [Outcome.ok_bind, Outcome.pure_eq] at hr
                cases hr
                simp only [wrapAdd_eq_of_lt hus]
                omega
              | err e => exact ⟨by simp, by intro r hr; simp at hr⟩
              | panicked => exact absurd ht (take_bytes_no_panic_d2 htus)
            | err e => exact ⟨by simp, by intro r hr; simp at hr⟩
            | panicked => exact absurd hl (as_usize_no_panic_d2 w2)
          | err e => exact ⟨by simp, by intro r hr; simp at hr⟩
          | panicked => exact absurd hp2 (peek_32_bytes_no_panic_d2 hdus)
        | err e => exact ⟨by simp, by intro r hr; simp at hr⟩
        | panicked => exact absurd hd (as_usize_no_panic_d2 w)
      | err e => exact ⟨by simp, by intro r hr; simp at hr⟩
      | panicked => exact absurd hp (peek_32_bytes_no_panic_d2 hus)
    | FixedBytes n =>
      have hn : n ≤ 32 := by
        simp only [wfType, Bool.or_eq_true, beq_iff_eq] at hwf
        omega
      simp only [decPm]
      unfold goodOut
      cases ht : take_bytes data offset n with
      | ok bs =>
        obtain ⟨hle, -⟩ := take_bytes_ok_d2 (by unfold USIZE at *; omega) ht
        refine ⟨by simp, ?_⟩
        intro r hr
        simp only [Outcome.ok_bind, Outcome.pure_eq] at hr
        cases hr
        simp only [wrapAdd_eq_of_lt hus]
        omega
      | err e => exact ⟨by simp, by intro r hr; simp at hr⟩
      | panicked => exact absurd ht (take_bytes_no_panic_d2 (by unfold USIZE at *; omega))
    | Array t1 =>
      have hwf1 : wfType t1 = true := by simpa only [wfType] using hwf
      have hf1 : tySize t1 ≤ f := by simp only [tySize] at hf; omega
      simp only [decPm]
      unfold goodOut
      cases hp : peek_32_bytes data offset with
      | ok w =>
        obtain ⟨hle, hw, -⟩ := peek_32_bytes_ok_d2 hp
        have hwb : ∀ b ∈ w, b ≤ 255 := hw ▸ bytes_le_sub hb offset 32
        simp only [Outcome.ok_bind]
        cases hd : as_usize w with
        | ok len_offset =>
          have hdyn : len_offset < 2 ^ 32 := as_usize_ok_lt_d2 hwb hd
          have hdus : len_offset + 32 < USIZE := by unfold USIZE at *; omega
          simp only [Outcome.ok_bind]
          cases hp2 : peek_32_bytes data len_offset with
          | ok w2 =>
            obtain ⟨hle2, hw2, -⟩ := peek_32_bytes_ok_d2 hp2
            have hw2b : ∀ b ∈ w2, b ≤ 255 := hw2 ▸ bytes_le_sub hb len_offset 32
            simp only [Outcome.ok_bind]
            cases hl : as_usize w2 with
            | ok len =>
              simp only [Outcome.ok_bind]
              rw [if_pos (by rw [wrapAdd_eq_of_lt hdus]; omega)]
              have htb : ∀ b ∈ data.drop (wrapAdd len_offset 32), b ≤ 255 :=
                fun b hmem => hb b (List.drop_subset _ data hmem)
              have htl : (data.drop (wrapAdd len_offset 32)).length ≤ data.length := by
                simp [List.length_drop]
              have hdecgood : ∀ off,
                  off ≤ (data.drop (wrapAdd len_offset 32)).length + 32 →
                  goodOut (data.drop (wrapAdd len_offset 32)).length
                    (decPm f t1 (data.drop (wrapAdd len_offset 32)) off) :=
                fun off hoff2 => ih t1 _ off hf1 hwf1 htb (by omega) hoff2
              cases hloop : decode_param_loop (decPm f t1) len
                  (data.drop (wrapAdd len_offset 32)) 0 with
              | ok ps =>
                refine ⟨by simp, ?_⟩
                intro r hr
                simp only [Outcome.ok_bind, Outcome.pure_eq] at hr
                cases hr
                simp only [wrapAdd_eq_of_lt hus]
                omega
              | err e => exact ⟨by simp, by intro r hr; simp at hr⟩
              | panicked =>
                exact absurd hloop (decode_param_loop_good hdecgood len 0 (by omega))
            | err e => exact ⟨by simp, by intro r hr; simp at hr⟩
            | panicked => exact absurd hl (as_usize_no_panic_d2 w2)
          | err e => exact ⟨by simp, by intro r hr; simp at hr⟩
          | panicked => exact absurd hp2 (peek_32_bytes_no_panic_d2 hdus)
        | err e => exact ⟨by simp, by intro r hr; simp at hr⟩
        | panicked => exact absurd hd (as_usize_no_panic_d2 w)
      | err e => exact ⟨by simp, by intro r hr; simp at hr⟩
      | panicked => exact absurd hp (peek_32_bytes_no_panic_d2 hus)
    | Struct ts =>
      have hwfl : wfTypeL ts = true := by simpa only [wfType] using hwf
      have hfl : tySizeL ts ≤ f := by simp only [tySize] at hf; omega
      have hdecgood : ∀ p ∈ ts, ∀ off, off ≤ data.length + 32 →
          goodOut data.length (decPm f p data off) :=
        fun p hp off hoff2 =>
          ih p data off (le_trans (tySizeL_le_of_mem hp) hfl)
            (wfTypeL_mem hwfl hp) hb hL hoff2
      simp only [decPm]
      unfold goodOut
      obtain ⟨hnp, hok⟩ := decode_param_fields_good hdecgood offset hoff
      cases hres : decode_param_fields (decPm f) ts data offset with
      | ok pr =>
        refine ⟨by simp, ?_⟩
        intro r hr
        simp only [Outcome.ok_bind, Outcome.pure_eq] at hr
        cases hr
        exact hok pr hres
      | err e => exact ⟨by simp, by intro r hr; simp at hr⟩
      | panicked => exact absurd hres hnp

end Decode

namespace Decoder

theorem decode_go_good : ∀ (ps : List ParamType) (data : List Nat) (off : Nat),
    wfTypeL ps = true → (∀ b ∈ data, b ≤ 255) → data.length ≤ 2 ^ 63 →
    off ≤ data.length + 32 → decode_go ps data off ≠ .panicked := by
  intro ps
  induction ps with
  | nil => intro data off _ _ _ _; simp [decode_go]
  | cons p ps ih =>
    intro data off hwf hb hL hoff
    simp only [wfTypeL, Bool.and_eq_true] at hwf
    have hgood : goodOut data.length (decode_parameter p data off) :=
      decP_good (tySize p) p data off le_rfl hwf.1 hb hL hoff
    unfold decode_go
    cases hr : decode_parameter p data off with
    | ok r =>
      simp only [Outcome.ok_bind]
      cases hrest : decode_go ps data r.new_offset with
      | ok vals => simp
      | err e => simp
      | panicked =>
        exact absurd hrest (ih data r.new_offset hwf.2 hb hL (hgood.2 r hr))
    | err e => simp
    | panicked => exact absurd hr hgood.1

end Decoder

namespace Decode

theorem decode_event_go_good : ∀ (ps : List ParamType) (data : List Nat) (off : Nat),
    wfTypeL ps = true → (∀ b ∈ data, b ≤ 255) → data.length ≤ 2 ^ 63 →
    off ≤ data.length + 32 → decode_event_go ps data off ≠ .panicked := by
  intro ps
  induction ps with
  | nil => intro data off _ _ _ _; simp [decode_event_go]
  | cons p ps ih =>
    intro data off hwf hb hL hoff
    simp only [wfTypeL, Bool.and_eq_true] at hwf
    have hgood : goodOut data.length (decode_param data p off) :=
      decPm_good (tySize p) p data off le_rfl hwf.1 hb hL hoff
    unfold decode_event_go
    cases hr : decode_param data p off with
    | ok r =>
      simp only [Outcome.ok_bind]
      cases hrest : decode_event_go ps data r.new_offset with
      | ok vals => simp
      | err e => simp
      | panicked =>
        exact absurd hrest (ih data r.new_offset hwf.2 hb hL (hgood.2 r hr))
    | err e => simp
    | panicked => exact absurd hr hgood.1

end Decode

/-! ### Claim theorems -/

/-- C1: for every parameter-type list satisfying the spec's data-model
invariant on widths/sizes, and every input byte buffer (bytes < 256,
length at most `isize::MAX` as Rust guarantees for slices), both
`EthereumDecoder::decode` and `decode_event` return a value list or an
error and never panic: no out-of-bounds slice access, offset arithmetic
overflow, or integer conversion aborts the program. -/
theorem C1_decode_never_panics (param_types : List ParamType) (data : List Nat)
    (hwf : wfTypeL param_types = true) (hb : ∀ b ∈ data, b ≤ 255)
    (hL : data.length ≤ 2 ^ 63) :
    Decoder.decode param_types data ≠ .panicked ∧
      Decode.decode_event param_types data ≠ .panicked :=
  ⟨Decoder.decode_go_good param_types data 0 hwf hb hL (by omega),
    Decode.decode_event_go_good param_types data 0 hwf hb hL (by omega)⟩

theorem C1_decode_never_panics_witness :
    Decoder.decode [.Struct [.UInt 256, .Bool], .Array (.Bytes)]
        (word 42 ++ word 1 ++ word 96 ++ word 0) ≠ .panicked ∧
      Decode.decode_event [.Struct [.UInt 256, .Bool], .Array (.Bytes)]
        (word 42 ++ word 1 ++ word 96 ++ word 0) ≠ .panicked :=
  C1_decode_never_panics _ _ (by decide) (by decide) (by decide)

/-- C2: the claim says `peek`/`take_bytes` compute `off + len` with
checked addition and reject overflowing offsets with `OutOfBounds`; the
code uses an unchecked `+`, so for `off = usize::MAX`, `len = 1` and an
empty buffer the sum wraps to 0, the bounds check passes, and the slice
`&data[off..0]` panics (in a debug build the add itself panics) instead
of returning `OutOfBounds`. -/
theorem C2_peek_unchecked_add_panics :
    Decoder.peek [] (2 ^ 64 - 1) 1 = .panicked ∧
      Decoder.take_bytes [] (2 ^ 64 - 1) 1 = .panicked := by
  constructor <;> rfl

mutual

/-- The head-cursor advance of one decoded parameter: one 32-byte word for
every type except `Struct`, which advances by the sum of its fields'
advances (decoder.rs's `decode_struct` returns the accumulated offset). -/
def headAdvance : ParamType → Nat
  | .Address => 32
  | .UInt _ => 32
  | .Int _ => 32
  | .Bool => 32
  | .String => 32
  | .Bytes => 32
  | .FixedBytes _ => 32
  | .Array _ => 32
  | .Struct ts => sumHeadAdvance ts

/-- Total head advance of a field list. -/
def sumHeadAdvance : List ParamType → Nat
  | [] => 0
  | p :: ps => headAdvance p + sumHeadAdvance ps

end

namespace Decoder

theorem decode_struct_fields_offsets
    {dec : ParamType → List Nat → Nat → Outcome DecodeError DecodeResult}
    {data : List Nat} :
    ∀ {ps : List ParamType},
      (∀ p ∈ ps, ∀ off r, dec p data off = .ok r → r.new_offset = off + headAdvance p) →
      ∀ off pr, decode_struct_fields dec ps data off = .ok pr →
        pr.2 = off + sumHeadAdvance ps := by
  intro ps
  induction ps with
  | nil =>
    intro _ off pr hpr
    simp only [decode_struct_fields, Outcome.pure_eq] at hpr
    cases hpr
    simp [sumHeadAdvance]
  | cons p ps ih =>
    intro hdec off pr hpr
    unfold decode_struct_fields at hpr
    cases hr : dec p data off with
    | ok r =>
      rw [hr] at hpr
      simp only [Outcome.ok_bind] at hpr
      cases hrest : decode_struct_fields dec ps data r.new_offset with
      | ok pr2 =>
        rw [hrest] at hpr
        simp only [Outcome.ok_bind, Outcome.pure_eq] at hpr
        cases hpr
        have h1 := hdec p (List.mem_cons_self p ps) off r hr
        have h2 := ih (fun q hq => hdec q (List.mem_cons_of_mem p hq)) r.new_offset pr2 hrest
        simp only [sumHeadAdvance]
        omega
      | err e => rw [hrest] at hpr; simp at hpr
      | panicked => rw [hrest] at hpr; simp at hpr
    | err e => rw [hr] at hpr; simp at hpr
    | panicked => rw [hr] at hpr; simp at hpr

theorem decP_new_offset (f : Nat) : ∀ t data offset r, data.length ≤ 2 ^ 63 →
    decP f t data offset = .ok r → r.new_offset = offset + headAdvance t := by
  induction f with
  | zero =>
    intro t data offset r _ h
    simp only [decP] at h
    cases h
  | succ f ih =>
    intro t data offset r hL h
    cases t with
    | Address =>
      simp only [decP] at h
      unfold decode_address at h
      cases hp : peek_32_bytes data offset with
      | ok w =>
        rw [hp] at h
        simp only [Outcome.ok_bind, Outcome.pure_eq] at h
        cases h
        have hle := (peek_32_bytes_ok hp).1
        simp only [headAdvance]
        rw [wrapAdd_eq_of_lt (by unfold USIZE; omega)]
      | err e => rw [hp] at h; simp at h
      | panicked => rw [hp] at h; simp at h
    | UInt w0 =>
      simp only [decP] at h
      unfold decode_uint at h
      cases hp : peek_32_bytes data offset with
      | ok w =>
        rw [hp] at h
        simp only [Outcome.ok_bind] at h
        cases hs : signedFromBe32 w with
        | some v =>
          rw [hs] at h
          simp only [Outcome.pure_eq] at h
          cases h
          have hle := (peek_32_bytes_ok hp).1
          simp only [headAdvance]
          rw [wrapAdd_eq_of_lt (by unfold USIZE; omega)]
        | none => rw [hs] at h; simp at h
      | err e => rw [hp] at h; simp at h
      | panicked => rw [hp] at h; simp at h
    | Int w0 =>
      simp only [decP] at h
      unfold decode_int at h
      cases hp : peek_32_bytes data offset with
      | ok w =>
        rw [hp] at h
        simp only [Outcome.ok_bind] at h
        cases hs : signedFromBe32 w with
        | some v =>
          rw [hs] at h
          simp only [Outcome.pure_eq] at h
          cases h
          have hle := (peek_32_bytes_ok hp).1
          simp only [headAdvance]
          rw [wrapAdd_eq_of_lt (by unfold USIZE; omega)]
        | none => rw [hs] at h; simp at h
      | err e => rw [hp] at h; simp at h
      | panicked => rw [hp] at h; simp at h
    | Bool =>
      simp only [decP] at h
      unfold decode_bool at h
      cases hp : peek_32_bytes data offset with
      | ok w =>
        rw [hp] at h
        simp only [Outcome.ok_bind, Outcome.pure_eq] at h
        cases h
        have hle := (peek_32_bytes_ok hp).1
        simp only [headAdvance]
        rw [wrapAdd_eq_of_lt (by unfold USIZE; omega)]
      | err e => rw [hp] at h; simp at h
      | panicked => rw [hp] at h; simp at h
    | String =>
      simp only [decP] at h
      unfold decode_string at h
      cases hp : peek_32_bytes data offset with
      | ok w =>
        rw [hp] at h
        simp only [Outcome.ok_bind] at h
        have hle := (peek_32_bytes_ok hp).1
        cases hd : as_usize w with
        | ok dyn =>
          rw [hd] at h
          simp only [Outcome.ok_bind] at h
          cases hp2 : peek_32_bytes data dyn with
          | ok w2 =>
            rw [hp2] at h
            simp only [Outcome.ok_bind] at h
            cases hl : as_usize w2 with
            | ok len =>
              rw [hl] at h
              simp only [Outcome.ok_bind] at h
              cases ht : take_bytes data (wrapAdd dyn 32) len with
              | ok bs =>
                rw [ht] at h
                simp only [Outcome.ok_bind] at h
                split_ifs at h with hv
                all_goals try simp only [Outcome.pure_eq] at h
                all_goals try cases h
                all_goals simp only [headAdvance]
                all_goals rw [wrapAdd_eq_of_lt (by unfold USIZE; omega)]
              | err e => rw [ht] at h; simp at h
              | panicked => rw [ht] at h; simp at h
            | err e => rw [hl] at h; simp at h
            | panicked => rw [hl] at h; simp at h
          | err e => rw [hp2] at h; simp at h
          | panicked => rw [hp2] at h; simp at h
        | err e => rw [hd] at h; simp at h
        | panicked => rw [hd] at h; simp at h
      | err e => rw [hp] at h; simp at h
      | panicked => rw [hp] at h; simp at h
    | Bytes =>
      simp only [decP] at h
      unfold decode_bytes at h
      cases hp : peek_32_bytes data offset with
      | ok w =>
        rw [hp] at h
        simp only [Outcome.ok_bind] at h
        have hle := (peek_32_bytes_ok hp).1
        cases hd : as_usize w with
        | ok dyn =>
          rw [hd] at h
          simp only [Outcome.ok_bind] at h
          cases hp2 : peek_32_bytes data dyn with
          | ok w2 =>
            rw [hp2] at h
            simp only [Outcome.ok_bind] at h
            cases hl : as_usize w2 with
            | ok len =>
              rw [hl] at h
              simp only [Outcome.ok_bind] at h
              cases ht : take_bytes data (wrapAdd dyn 32) len with
              | ok bs =>
                rw [ht] at h
                simp only [Outcome.ok_bind, Outcome.pure_eq] at h
                cases h
                simp only [headAdvance]
                rw [wrapAdd_eq_of_lt (by unfold USIZE; omega)]
              | err e => rw [ht] at h; simp at h
              | panicked => rw [ht] at h; simp at h
            | err e => rw [hl] at h; simp at h
            | panicked => rw [hl] at h; simp at h
          | err e => rw [hp2] at h; simp at h
          | panicked => rw [hp2] at h; simp at h
        | err e => rw [hd] at h; simp at h
        | panicked => rw [hd] at h; simp at h
      | err e => rw [hp] at h; simp at h
      | panicked => rw [hp] at h; simp at h
    | FixedBytes n =>
      simp only [decP] at h
      unfold decode_fixed_bytes at h
      cases ht : take_bytes data offset n with
      | ok bs =>
        rw [ht] at h
        simp only [Outcome.ok_bind, Outcome.pure_eq] at h
        cases h
        have hofle : offset ≤ data.length := by
          unfold take_bytes at ht
          split_ifs at ht with h1 h2
          all_goals try cases ht
          all_goals omega
        simp only [headAdvance]
        rw [wrapAdd_eq_of_lt (by unfold USIZE at *; omega)]
      | err e => rw [ht] at h; simp at h
      | panicked => rw [ht] at h; simp at h
    | Array t1 =>
      simp only [decP] at h
      cases hp : peek_32_bytes data offset with
      | ok w =>
        rw [hp] at h
        simp only [Outcome.ok_bind] at h
        have hle := (peek_32_bytes_ok hp).1
        cases hd : as_usize w with
        | ok len_offset =>
          rw [hd] at h
          simp only [Outcome.ok_bind] at h
          cases hp2 : peek_32_bytes data len_offset with
          | ok w2 =>
            rw [hp2] at h
            simp only [Outcome.ok_bind] at h
            cases hl : as_usize w2 with
            | ok len =>
              rw [hl] at h
              simp only [Outcome.ok_bind] at h
              split_ifs at h with htail
              · cases hloop : decode_array_loop (decP f t1) len
                    (data.drop (wrapAdd len_offset 32)) 0 with
                | ok ps =>
                  rw [hloop] at h
                  simp only [Outcome.ok_bind, Outcome.pure_eq] at h
                  cases h
                  simp only [headAdvance]
                  rw [wrapAdd_eq_of_lt (by unfold USIZE; omega)]
                | err e => rw [hloop] at h; simp at h
                | panicked => rw [hloop] at h; simp at h
            | err e => rw [hl] at h; simp at h
            | panicked => rw [hl] at h; simp at h
          | err e => rw [hp2] at h; simp at h
          | panicked => rw [hp2] at h; simp at h
        | err e => rw [hd] at h; simp at h
        | panicked => rw [hd] at h; simp at h
      | err e => rw [hp] at h; simp at h
      | panicked => rw [hp] at h; simp at h
    | Struct ts =>
      simp only [decP] at h
      cases hres : decode_struct_fields (decP f) ts data offset with
      | ok pr =>
        rw [hres] at h
        simp only [Outcome.ok_bind, Outcome.pure_eq] at h
        cases h
        simp only [headAdvance]
        exact decode_struct_fields_offsets
          (fun p _ off r2 hr2 => ih p data off r2 hL hr2) offset pr hres
      | err e => rw [hres] at h; simp at h
      | panicked => rw [hres] at h; simp at h

end Decoder

/-- C3 counterexample: decoding the tuple `(uint256,bool)` at offset 0
succeeds with `new_offset = 64`, not `offset + 32 = 32` — `decode_struct`
returns the accumulated field offset, so the claim's "always offset plus
32" fails for `Struct`. -/
theorem C3_struct_new_offset_counterexample :
    Decoder.decode_parameter (.Struct [.UInt 256, .Bool]) (word 42 ++ word 1) 0 =
      .ok ⟨.struct [.uint 42, .bool true], 64⟩ ∧ (64 : Nat) ≠ 0 + 32 :=
  ⟨by rfl, by decide⟩

/-- C3 (amended): whenever `decode_parameter` succeeds (on a buffer of
Rust-representable length), the returned `new_offset` equals the input
offset plus the head advance of the type term: exactly 32 for every
non-tuple type (including dynamic types), and the sum of the fields'
advances for a tuple (`Struct`). -/
theorem C3_new_offset_head_advance (t : ParamType) (data : List Nat) (offset : Nat)
    (r : DecodeResult) (hL : data.length ≤ 2 ^ 63)
    (h : Decoder.decode_parameter t data offset = .ok r) :
    r.new_offset = offset + headAdvance t :=
  Decoder.decP_new_offset (tySize t) t data offset r hL h

theorem C3_new_offset_head_advance_witness :
    (⟨.struct [.uint 42, .bool true], 64⟩ : DecodeResult).new_offset =
      0 + headAdvance (.Struct [.UInt 256, .Bool]) :=
  C3_new_offset_head_advance (.Struct [.UInt 256, .Bool]) (word 42 ++ word 1) 0
    ⟨.struct [.uint 42, .bool true], 64⟩ (by decide) (by rfl)

/-- C7: on a 32-byte word, `as_usize` succeeds exactly when the top 28
bytes are all zero, in which case it returns the big-endian value of the
low 4 bytes; otherwise it fails with `InvalidUnsignedInteger`. -/
theorem C7_as_usize_strict (w : List Nat) (hlen : w.length = 32) :
    (∀ v, Decoder.as_usize w = .ok v ↔
      ((w.take 28).all (fun x => x == 0) = true ∧
        v = w.getD 28 0 * 2 ^ 24 + w.getD 29 0 * 2 ^ 16 +
          w.getD 30 0 * 2 ^ 8 + w.getD 31 0)) ∧
    ((w.take 28).all (fun x => x == 0) = false →
      Decoder.as_usize w = .err .invalidUnsignedInteger) := by
  constructor
  · intro v
    constructor
    · intro h
      unfold Decoder.as_usize at h
      split_ifs at h with hz
      · cases h
        exact ⟨hz, rfl⟩
    · rintro ⟨hz, rfl⟩
      unfold Decoder.as_usize
      rw [if_pos hz]
  · intro hz
    unfold Decoder.as_usize
    rw [if_neg (by simp [hz])]

theorem C7_as_usize_strict_witness :
    Decoder.as_usize (List.replicate 32 0) = .ok 0 :=
  ((C7_as_usize_strict (List.replicate 32 0) (by decide)).1 0).mpr ⟨by decide, by decide⟩

/-- C5: `EthereumDecoder::decode_string` is strict about UTF-8 and never
performs lossy substitution: whenever the offset and length words resolve
and the payload `bs` is extracted, an invalid-UTF-8 payload makes the
decode fail with `Utf8Error`, and a valid payload is returned verbatim. -/
theorem C5_string_utf8_strict (data : List Nat) (offset dyn len : Nat)
    (w w2 bs : List Nat)
    (hw : Decoder.peek_32_bytes data offset = .ok w)
    (hd : Decoder.as_usize w = .ok dyn)
    (hw2 : Decoder.peek_32_bytes data dyn = .ok w2)
    (hl : Decoder.as_usize w2 = .ok len)
    (ht : Decoder.take_bytes data (wrapAdd dyn 32) len = .ok bs) :
    (utf8Valid bs = false →
      Decoder.decode_parameter .String data offset = .err .utf8Error) ∧
    (utf8Valid bs = true →
      Decoder.decode_parameter .String data offset =
        .ok ⟨.string bs, wrapAdd offset 32⟩) := by
  have hrun : Decoder.decode_parameter .String data offset =
      (if utf8Valid bs then .ok ⟨.string bs, wrapAdd offset 32⟩
        else .err .utf8Error) := by
    unfold Decoder.decode_parameter
    simp only [tySize, Decoder.decP]
    unfold Decoder.decode_string
    rw [hw]
    simp only [Outcome.ok_bind]
    rw [hd]
    simp only [Outcome.ok_bind]
    rw [hw2]
    simp only [Outcome.ok_bind]
    rw [hl]
    simp only [Outcome.ok_bind]
    rw [ht]
    simp only [Outcome.ok_bind]
    split_ifs with hv <;> rfl
  constructor
  · intro hv
    rw [hrun, if_neg (by simp [hv])]
  · intro hv
    rw [hrun, if_pos hv]

theorem C5_string_utf8_strict_witness :
    (utf8Valid [0x80] = false →
      Decoder.decode_parameter .String (word 0x20 ++ word 1 ++ [0x80]) 0 =
        .err .utf8Error) ∧
    (utf8Valid [0x80] = true →
      Decoder.decode_parameter .String (word 0x20 ++ word 1 ++ [0x80]) 0 =
        .ok ⟨.string [0x80], wrapAdd 0 32⟩) :=
  C5_string_utf8_strict (word 0x20 ++ word 1 ++ [0x80]) 0 32 1
    (word 0x20) (word 1) [0x80] (by rfl) (by rfl) (by rfl) (by rfl) (by rfl)

/-- The structural-shape relation between a decoded value and its driving
type term (spec §3 "Typed Value" invariant): the variant matches the
term's head, array elements each match the element term, and a tuple's
fields match the declaring tuple pointwise (equal arity). -/
inductive Matches : Parameter → ParamType → Prop where
  | address (a : List Nat) : Matches (.address a) .Address
  | uint (n w : Nat) : Matches (.uint n) (.UInt w)
  | int (i : Int) (w : Nat) : Matches (.int i) (.Int w)
  | bool (b : Bool) : Matches (.bool b) .Bool
  | string (s : List Nat) : Matches (.string s) .String
  | bytes (bs : List Nat) : Matches (.bytes bs) .Bytes
  | fixedBytes (bs : List Nat) (n : Nat) : Matches (.fixedBytes bs) (.FixedBytes n)
  | array (ps : List Parameter) (t : ParamType) (h : ∀ p ∈ ps, Matches p t) :
      Matches (.array ps) (.Array t)
  | struct (ps : List Parameter) (ts : List ParamType)
      (h : List.Forall₂ Matches ps ts) : Matches (.struct ps) (.Struct ts)

namespace Decoder

theorem decode_array_loop_matches
    {dec : List Nat → Nat → Outcome DecodeError DecodeResult}
    {tail : List Nat} {t1 : ParamType}
    (hdec : ∀ off r, dec tail off = .ok r → Matches r.parameter t1) :
    ∀ n off ps, decode_array_loop dec n tail off = .ok ps →
      ∀ p ∈ ps, Matches p t1 := by
  intro n
  induction n with
  | zero =>
    intro off ps h
    simp only [decode_array_loop, Outcome.pure_eq] at h
    cases h
    intro p hp
    cases hp
  | succ n ih =>
    intro off ps h
    unfold decode_array_loop at h
    cases hr : dec tail off with
    | ok r =>
      rw [hr] at h
      simp only [Outcome.ok_bind] at h
      cases hrest : decode_array_loop dec n tail r.new_offset with
      | ok ps2 =>
        rw [hrest] at h
        simp only [Outcome.ok_bind, Outcome.pure_eq] at h
        cases h
        intro p hp
        rcases List.mem_cons.mp hp with rfl | hmem
        · exact hdec off r hr
        · exact ih r.new_offset ps2 hrest p hmem
      | err e => rw [hrest] at h; simp at h
      | panicked => rw [hrest] at h; simp at h
    | err e => rw [hr] at h; simp at h
    | panicked => rw [hr] at h; simp at h

theorem decode_struct_fields_matches
    {dec : ParamType → List Nat → Nat → Outcome DecodeError DecodeResult}
    {data : List Nat} :
    ∀ {ts : List ParamType},
      (∀ p ∈ ts, ∀ off r, dec p data off = .ok r → Matches r.parameter p) →
      ∀ off pr, decode_struct_fields dec ts data off = .ok pr →
        List.Forall₂ Matches pr.1 ts := by
  intro ts
  induction ts with
  | nil =>
    intro _ off pr h
    simp only [decode_struct_fields, Outcome.pure_eq] at h
    cases h
    exact List.Forall₂.nil
  | cons p ps ih =>
    intro hdec off pr h
    unfold decode_struct_fields at h
    cases hr : dec p data off with
    | ok r =>
      rw [hr] at h
      simp only [Outcome.ok_bind] at h
      cases hrest : decode_struct_fields dec ps data r.new_offset with
      | ok pr2 =>
        rw [hrest] at h
        simp only [Outcome.ok_bind, Outcome.pure_eq] at h
        cases h
        exact List.Forall₂.cons
          (hdec p (List.mem_cons_self p ps) off r hr)
          (ih (fun q hq => hdec q (List.mem_cons_of_mem p hq)) r.new_offset pr2 hrest)
      | err e => rw [hrest] at h; simp at h
      | panicked => rw [hrest] at h; simp at h
    | err e => rw [hr] at h; simp at h
    | panicked => rw [hr] at h; simp at h

theorem decP_matches (f : Nat) : ∀ t data offset r,
    decP f t data offset = .ok r → Matches r.parameter t := by
  induction f with
  | zero =>
    intro t data offset r h
    simp only [decP] at h
    cases h
  | succ f ih =>
    intro t data offset r h
    cases t with
    | Address =>
      simp only [decP] at h
      unfold decode_address at h
      cases hp : peek_32_bytes data offset with
      | ok w =>
        rw [hp] at h
        simp only [Outcome.ok_bind, Outcome.pure_eq] at h
        cases h
        exact Matches.address _
      | err e => rw [hp] at h; simp at h
      | panicked => rw [hp] at h; simp at h
    | UInt w0 =>
      simp only [decP] at h
      unfold decode_uint at h
      cases hp : peek_32_bytes data offset with
      | ok w =>
        rw [hp] at h
        simp only [Outcome.ok_bind] at h
        cases hs : signedFromBe32 w with
        | some v =>
          rw [hs] at h
          simp only [Outcome.pure_eq] at h
          cases h
          exact Matches.uint _ _
        | none => rw [hs] at h; simp at h
      | err e => rw [hp] at h; simp at h
      | panicked => rw [hp] at h; simp at h
    | Int w0 =>
      simp only [decP] at h
      unfold decode_int at h
      cases hp : peek_32_bytes data offset with
      | ok w =>
        rw [hp] at h
        simp only [Outcome.ok_bind] at h
        cases hs : signedFromBe32 w with
        | some v =>
          rw [hs] at h
          simp only [Outcome.pure_eq] at h
          cases h
          exact Matches.int _ _
        | none => rw [hs] at h; simp at h
      | err e => rw [hp] at h; simp at h
      | panicked => rw [hp] at h; simp at h
    | Bool =>
      simp only [decP] at h
      unfold decode_bool at h
      cases hp : peek_32_bytes data offset with
      | ok w =>
        rw [hp] at h
        simp only [Outcome.ok_bind, Outcome.pure_eq] at h
        cases h
        exact Matches.bool _
      | err e => rw [hp] at h; simp at h
      | panicked => rw [hp] at h; simp at h
    | String =>
      simp only [decP] at h
      unfold decode_string at h
      cases hp : peek_32_bytes data offset with
      | ok w =>
        rw [hp] at h
        simp only [Outcome.ok_bind] at h
        cases hd : as_usize w with
        | ok dyn =>
          rw [hd] at h
          simp only [Outcome.ok_bind] at h
          cases hp2 : peek_32_bytes data dyn with
          | ok w2 =>
            rw [hp2] at h
            simp only [Outcome.ok_bind] at h
            cases hl : as_usize w2 with
            | ok len =>
              rw [hl] at h
              simp only [Outcome.ok_bind] at h
              cases ht : take_bytes data (wrapAdd dyn 32) len with
              | ok bs =>
                rw [ht] at h
                simp only [Outcome.ok_bind] at h
                split_ifs at h with hv
                all_goals try simp only [Outcome.pure_eq] at h
                all_goals try cases h
                all_goals exact Matches.string _
              | err e => rw [ht] at h; simp at h
              | panicked => rw [ht] at h; simp at h
            | err e => rw [hl] at h; simp at h
            | panicked => rw [hl] at h; simp at h
          | err e => rw [hp2] at h; simp at h
          | panicked => rw [hp2] at h; simp at h
        | err e => rw [hd] at h; simp at h
        | panicked => rw [hd] at h; simp at h
      | err e => rw [hp] at h; simp at h
      | panicked => rw [hp] at h; simp at h
    | Bytes =>
      simp only [decP] at h
      unfold decode_bytes at h
      cases hp : peek_32_bytes data offset with
      | ok w =>
        rw [hp] at h
        simp only [Outcome.ok_bind] at h
        cases hd : as_usize w with
        | ok dyn =>
          rw [hd] at h
          simp only [Outcome.ok_bind] at h
          cases hp2 : peek_32_bytes data dyn with
          | ok w2 =>
            rw [hp2] at h
            simp only [Outcome.ok_bind] at h
            cases hl : as_usize w2 with
            | ok len =>
              rw [hl] at h
              simp only [Outcome.ok_bind] at h
              cases ht : take_bytes data (wrapAdd dyn 32) len with
              | ok bs =>
                rw [ht] at h
                simp only [Outcome.ok_bind, Outcome.pure_eq] at h
                cases h
                exact Matches.bytes _
              | err e => rw [ht] at h; simp at h
              | panicked => rw [ht] at h; simp at h
            | err e => rw [hl] at h; simp at h
            | panicked => rw [hl] at h; simp at h
          | err e => rw [hp2] at h; simp at h
          | panicked => rw [hp2] at h; simp at h
        | err e => rw [hd] at h; simp at h
        | panicked => rw [hd] at h; simp at h
      | err e => rw [hp] at h; simp at h
      | panicked => rw [hp] at h; simp at h
    | FixedBytes n =>
      simp only [decP] at h
      unfold decode_fixed_bytes at h
      cases ht : take_bytes data offset n with
      | ok bs =>
        rw [ht] at h
        simp only [Outcome.ok_bind, Outcome.pure_eq] at h
        cases h
        exact Matches.fixedBytes _ _
      | err e => rw [ht] at h; simp at h
      | panicked => rw [ht] at h; simp at h
    | Array t1 =>
      simp only [decP] at h
      cases hp : peek_32_bytes data offset with
      | ok w =>
        rw [hp] at h
        simp only [Outcome.ok_bind] at h
        cases hd : as_usize w with
        | ok len_offset =>
          rw [hd] at h
          simp only [Outcome.ok_bind] at h
          cases hp2 : peek_32_bytes data len_offset with
          | ok w2 =>
            rw [hp2] at h
            simp only [Outcome.ok_bind] at h
            cases hl : as_usize w2 with
            | ok len =>
              rw [hl] at h
              simp only [Outcome.ok_bind] at h
              split_ifs at h with htail
              cases hloop : decode_array_loop (decP f t1) len
                  (data.drop (wrapAdd len_offset 32)) 0 with
              | ok ps =>
                rw [hloop] at h
                simp only [Outcome.ok_bind, Outcome.pure_eq] at h
                cases h
                exact Matches.array _ _
                  (decode_array_loop_matches (fun off r2 hr2 => ih t1 _ off r2 hr2)
                    len 0 ps hloop)
              | err e => rw [hloop] at h; simp at h
              | panicked => rw [hloop] at h; simp at h
            | err e => rw [hl] at h; simp at h
            | panicked => rw [hl] at h; simp at h
          | err e => rw [hp2] at h; simp at h
          | panicked => rw [hp2] at h; simp at h
        | err e => rw [hd] at h; simp at h
        | panicked => rw [hd] at h; simp at h
      | err e => rw [hp] at h; simp at h
      | panicked => rw [hp] at h; simp at h
    | Struct ts =>
      simp only [decP] at h
      cases hres : decode_struct_fields (decP f) ts data offset with
      | ok pr =>
        rw [hres] at h
        simp only [Outcome.ok_bind, Outcome.pure_eq] at h
        cases h
        exact Matches.struct _ _
          (decode_struct_fields_matches
            (fun p _ off r2 hr2 => ih p data off r2 hr2) offset pr hres)
      | err e => rw [hres] at h; simp at h
      | panicked => rw [hres] at h; simp at h

theorem decode_go_matches : ∀ (ps : List ParamType) (data : List Nat) (off : Nat)
    (vals : List Parameter), decode_go ps data off = .ok vals →
    List.Forall₂ Matches vals ps := by
  intro ps
  induction ps with
  | nil =>
    intro data off vals h
    simp only [decode_go, Outcome.pure_eq] at h
    cases h
    exact List.Forall₂.nil
  | cons p ps ih =>
    intro data off vals h
    unfold decode_go at h
    cases hr : decode_parameter p data off with
    | ok r =>
      rw [hr] at h
      simp only [Outcome.ok_bind] at h
      cases hrest : decode_go ps data r.new_offset with
      | ok vals2 =>
        rw [hrest] at h
        simp only [Outcome.ok_bind, Outcome.pure_eq] at h
        cases h
        exact List.Forall₂.cons
          (decP_matches (tySize p) p data off r hr)
          (ih data r.new_offset vals2 hrest)
      | err e => rw [hrest] at h; simp at h
      | panicked => rw [hrest] at h; simp at h
    | err e => rw [hr] at h; simp at h
    | panicked => rw [hr] at h; simp at h

end Decoder

/-- C9: a successful `decode` of parameter list `P` returns exactly `|P|`
values, and each value's variant matches the head of its type term,
recursively (array elements match the element term; a tuple decodes to a
`Struct` of equal arity whose fields match pointwise). -/
theorem C9_decode_structural_shape (P : List ParamType) (data : List Nat)
    (vals : List Parameter) (h : Decoder.decode P data = .ok vals) :
    vals.length = P.length ∧ List.Forall₂ Matches vals P :=
  have hm := Decoder.decode_go_matches P data 0 vals h
  ⟨hm.length_eq, hm⟩

theorem C9_decode_structural_shape_witness :
    ([Parameter.struct [.uint 42, .bool true]].length =
      [ParamType.Struct [.UInt 256, .Bool]].length) ∧
    List.Forall₂ Matches [Parameter.struct [.uint 42, .bool true]]
      [ParamType.Struct [.UInt 256, .Bool]] :=
  C9_decode_structural_shape [.Struct [.UInt 256, .Bool]] (word 42 ++ word 1)
    [.struct [.uint 42, .bool true]] (by rfl)

/-- C8: every successfully constructed event descriptor stores the exact
input signature string and a topic hash computed as Keccak-256 of that
exact string's bytes (not of any canonicalised rendering); the Keccak
function itself is external and is quantified over. -/
theorem C8_topic_hash_exact_signature (keccak : List Nat → List Nat)
    (s : List Char) (d : EventFilter) (h : EventFilter.new keccak s = .ok d) :
    d.hash = keccak (strBytes d.signature) ∧ d.signature = s := by
  unfold EventFilter.new at h
  split_ifs at h with hv
  all_goals try cases h
  cases hx : extract_event_signature s with
  | ok nt =>
    rw [hx] at h
    cases h
    exact ⟨rfl, rfl⟩
  | error e => rw [hx] at h; cases h

theorem C8_topic_hash_exact_signature_witness :
    (EventFilter.mk "Transfer(address)".data [] "Transfer".data [.Address]).hash =
      (fun _ => ([] : List Nat))
        (strBytes (EventFilter.mk "Transfer(address)".data [] "Transfer".data
          [.Address]).signature) ∧
    (EventFilter.mk "Transfer(address)".data [] "Transfer".data [.Address]).signature =
      "Transfer(address)".data :=
  C8_topic_hash_exact_signature (fun _ => []) "Transfer(address)".data _ (by rfl)

/-- The shape accepted by the claim's regex
`^[A-Za-z_][A-Za-z0-9_]*\([^)]+\)$` — written from the claim's words (the
event name must start with a letter or underscore), for comparison with
the code's matcher. -/
def claimedSignatureShape (s : List Char) : Bool :=
  match s.takeWhile isWordChar, s.dropWhile isWordChar with
  | c0 :: _, c :: rest2 =>
    (c0.isAlpha || c0 == '_') && (c == '(') && (rest2.getLast? == some ')') &&
      !rest2.dropLast.isEmpty && !rest2.dropLast.contains ')'
  | _, _ => false

/-- The shape actually matched by the code's regex `^(\w+)\(([^)]+)\)$`
(configuration.rs:312): a non-empty word-character name — a leading digit
is allowed — then a parenthesised non-empty parameter region free of
`)`. -/
def CodeSigShape (s : List Char) : Prop :=
  ∃ name inner, s = name ++ '(' :: (inner ++ [')']) ∧ name ≠ [] ∧
    name.all isWordChar = true ∧ inner ≠ [] ∧ inner.contains ')' = false

theorem takeWhile_word_split (name rest : List Char)
    (h : name.all isWordChar = true) :
    (name ++ '(' :: rest).takeWhile isWordChar = name ∧
      (name ++ '(' :: rest).dropWhile isWordChar = '(' :: rest := by
  induction name with
  | nil =>
    have hp : isWordChar '(' = false := by decide
    simp [List.takeWhile_cons, List.dropWhile_cons, hp]
  | cons c cs ih =>
    simp only [List.all_cons, Bool.and_eq_true] at h
    obtain ⟨ht, hd⟩ := ih h.2
    simp [List.takeWhile_cons, List.dropWhile_cons, h.1, ht, hd]

theorem parseSigTypes_error_shape : ∀ (ps : List (List Char)) (e : List Char),
    parseSigTypes ps = .error e → ∃ frag, e = "Unsupported data type: ".data ++ frag := by
  intro ps
  induction ps with
  | nil => intro e h; simp [parseSigTypes] at h
  | cons p ps ih =>
    intro e h
    unfold parseSigTypes at h
    cases hf : ParamType.from_str (trimChars p) with
    | ok t =>
      rw [hf] at h
      simp only [bind, Except.bind] at h
      cases hrest : parseSigTypes ps with
      | ok ts => rw [hrest] at h; simp [pure, Except.pure] at h
      | error e2 =>
        rw [hrest] at h
        cases h
        exact ih _ hrest
    | error u =>
      rw [hf] at h
      cases h
      exact ⟨p, rfl⟩

theorem extract_error_shape (s : List Char)
    (hv : is_valid_signature_format s = true) (e : List Char)
    (h : extract_event_signature s = .error e) :
    ∃ frag, e = "Unsupported data type: ".data ++ frag := by
  unfold extract_event_signature at h
  rw [if_pos hv] at h
  cases hx : parseSigTypes (((splitComma
      (((s.dropWhile isWordChar).drop 1).dropLast)).map trimChars)) with
  | ok ts => rw [hx] at h; cases h
  | error e2 =>
    rw [hx] at h
    cases h
    exact parseSigTypes_error_shape _ _ hx

/-- C6 counterexample: the claim's regex requires the event name to start
with a letter or underscore, so it rejects `0(uint256)`; but the code's
`\w+` accepts a leading digit: the shape check passes and the constructor
returns a descriptor rather than `InvalidSignatureFormat`. -/
theorem C6_leading_digit_signature_counterexample :
    claimedSignatureShape "0(uint256)".data = false ∧
    is_valid_signature_format "0(uint256)".data = true ∧
    EventFilter.new (fun _ => []) "0(uint256)".data =
      .ok ⟨"0(uint256)".data, [], "0".data, [.UInt 256]⟩ :=
  ⟨by rfl, by rfl, by rfl⟩

/-- C6 (amended): the shape check accepts exactly the strings of the form
`\w+\([^)]+\)` — name a non-empty word-character sequence (a leading digit
is allowed), parameter region non-empty — and `EventFilter::new` returns
the `InvalidSignatureFormat` error exactly for the strings not of that
shape (in particular, empty parameter lists are rejected). -/
theorem C6_signature_format_amended (s : List Char) :
    (is_valid_signature_format s = true ↔ CodeSigShape s) ∧
    ∀ keccak : List Nat → List Nat,
      (EventFilter.new keccak s = .error "Invalid event signature format.".data ↔
        is_valid_signature_format s = false) := by
  constructor
  · constructor
    · intro hm
      unfold is_valid_signature_format at hm
      cases hsplit : s.dropWhile isWordChar with
      | nil => rw [hsplit] at hm; simp at hm
      | cons c rest2 =>
        rw [hsplit] at hm
        simp only [Bool.and_eq_true, beq_iff_eq, Bool.not_eq_true'] at hm
        obtain ⟨⟨⟨⟨hc, hname⟩, hlast⟩, hinner⟩, hcont⟩ := hm
        subst hc
        have hne : rest2 ≠ [] := by
          intro h0
          rw [h0] at hlast
          simp at hlast
        have hglast : rest2.getLast hne = ')' := by
          have h1 := hlast
          rw [List.getLast?_eq_getLast rest2 hne] at h1
          exact Option.some.inj h1
        refine ⟨s.takeWhile isWordChar, rest2.dropLast, ?_, ?_, ?_, ?_, hcont⟩
        · conv_lhs => rw [← List.takeWhile_append_dropWhile (p := isWordChar) (l := s)]
          rw [hsplit]
          have hr2 : rest2.dropLast ++ [')'] = rest2 := by
            conv_rhs => rw [← List.dropLast_append_getLast hne]
            rw [hglast]
          rw [hr2]
        · intro h0
          rw [h0] at hname
          simp at hname
        · simp only [List.all_eq_true]
          intro c2 hc2
          exact List.mem_takeWhile_imp hc2
        · intro h0
          rw [h0] at hinner
          simp at hinner
    · rintro ⟨name, inner, hs, hname, hall, hinner, hcont⟩
      subst hs
      obtain ⟨htw, hdw⟩ := takeWhile_word_split name (inner ++ [')']) hall
      have h1 : name.isEmpty = false := by
        cases name with
        | nil => exact absurd rfl hname
        | cons a l => rfl
      have h2 : inner.isEmpty = false := by
        cases inner with
        | nil => exact absurd rfl hinner
        | cons a l => rfl
      unfold is_valid_signature_format
      rw [hdw]
      simp [htw, h1, h2, List.getLast?_concat, List.dropLast_concat, hcont]
      intro hmem
      have hel : inner.elem ')' = true := List.elem_eq_true_of_mem hmem
      have hel2 : inner.contains ')' = true := hel
      rw [hcont] at hel2
      cases hel2
  · intro keccak
    constructor
    · intro h
      by_contra hvt
      have hv : is_valid_signature_format s = true := by
        cases hvf : is_valid_signature_format s
        · exact absurd hvf hvt
        · rfl
      unfold EventFilter.new at h
      rw [hv] at h
      simp only [Bool.not_true] at h
      rw [if_neg (by simp)] at h
      cases hx : extract_event_signature s with
      | ok nt => rw [hx] at h; cases h
      | error e =>
        rw [hx] at h
        cases h
        obtain ⟨frag, hfrag⟩ := extract_error_shape s hv _ hx
        have h0 : ("Invalid event signature format.".data).headD ' ' =
            (("Unsupported data type: ".data ++ frag)).headD ' ' := by rw [← hfrag]
        have ha : ("Invalid event signature format.".data).headD ' ' = 'I' := rfl
        have hb : (("Unsupported data type: ".data ++ frag)).headD ' ' = 'U' := rfl
        rw [ha, hb] at h0
        exact absurd h0 (by decide)
    · intro hv
      unfold EventFilter.new
      rw [hv]
      rfl

/-! ### C4: grammar round-trip -/

mutual

/-- Every tuple in the term has at least one field (the spec's event
grammar always produces non-empty tuples). -/
def structsNonempty : ParamType → Bool
  | .Array t => structsNonempty t
  | .Struct ts => !ts.isEmpty && structsNonemptyL ts
  | _ => true

/-- `structsNonempty` on every element. -/
def structsNonemptyL : List ParamType → Bool
  | [] => true
  | p :: ps => structsNonempty p && structsNonemptyL ps

end

mutual

/-- The canonical rendering of the term contains no comma: no tuple of
two or more fields occurs anywhere in it. -/
def commaFree : ParamType → Bool
  | .Array t => commaFree t
  | .Struct [t] => commaFree t
  | .Struct _ => false
  | _ => true

/-- `commaFree` on every element. -/
def commaFreeL : List ParamType → Bool
  | [] => true
  | p :: ps => commaFree p && commaFreeL ps

end

/-- Round-trippable terms: no tuple with two or more fields occurs
strictly inside another tuple (`from_str`'s naive comma split would break
on the nested comma). -/
def rtOK : ParamType → Bool
  | .Array t => rtOK t
  | .Struct ts => commaFreeL ts
  | _ => true

theorem commaFree_imp_rtOK : ∀ f t, tySize t ≤ f → commaFree t = true →
    rtOK t = true := by
  intro f
  induction f with
  | zero =>
    intro t hf
    have := tySize_pos t
    omega
  | succ f ih =>
    intro t hf hc
    cases t with
    | Array t1 =>
      simp only [commaFree] at hc
      simp only [rtOK]
      exact ih t1 (by simp only [tySize] at hf; omega) hc
    | Struct ts =>
      cases ts with
      | nil => simp [rtOK, commaFreeL]
      | cons p ps =>
        cases ps with
        | nil =>
          simp only [commaFree] at hc
          simp only [rtOK, commaFreeL, Bool.and_eq_true]
          exact ⟨hc, trivial⟩
        | cons q qs => simp [commaFree] at hc
    | Address => simp [rtOK]
    | UInt w => simp [rtOK]
    | Int w => simp [rtOK]
    | Bool => simp [rtOK]
    | String => simp [rtOK]
    | Bytes => simp [rtOK]
    | FixedBytes n => simp [rtOK]

theorem splitComma_cons_of (c : Char) {cs : List Char} {p : List Char}
    {ps : List (List Char)} (h : splitComma cs = p :: ps) :
    splitComma (c :: cs) = if c = ',' then [] :: p :: ps else (c :: p) :: ps := by
  unfold splitComma
  rw [h]

theorem splitComma_ne_nil : ∀ l : List Char, splitComma l ≠ [] := by
  intro l
  induction l with
  | nil => simp [splitComma]
  | cons c cs ih =>
    cases h : splitComma cs with
    | nil => exact absurd h ih
    | cons p ps =>
      rw [splitComma_cons_of c h]
      split_ifs <;> simp

theorem splitComma_no_comma : ∀ l : List Char, ',' ∉ l → splitComma l = [l] := by
  intro l
  induction l with
  | nil => intro _; rfl
  | cons c cs ih =>
    intro hmem
    have hc : c ≠ ',' := fun h => hmem (h ▸ List.mem_cons_self c cs)
    have hcs : ',' ∉ cs := fun h => hmem (List.mem_cons_of_mem c h)
    rw [splitComma_cons_of c (ih hcs), if_neg hc]

theorem splitComma_append_comma : ∀ x r : List Char, ',' ∉ x →
    splitComma (x ++ ',' :: r) = x :: splitComma r := by
  intro x
  induction x with
  | nil =>
    intro r _
    show splitComma (',' :: r) = [] :: splitComma r
    cases h : splitComma r with
    | nil => exact absurd h (splitComma_ne_nil r)
    | cons p ps => rw [splitComma_cons_of ',' h, if_pos rfl]
  | cons c cs ih =>
    intro r hmem
    have hc : c ≠ ',' := fun h => hmem (h ▸ List.mem_cons_self c _)
    have hcs : ',' ∉ cs := fun h => hmem (List.mem_cons_of_mem c h)
    rw [List.cons_append]
    cases h : splitComma (cs ++ ',' :: r) with
    | nil => exact absurd h (splitComma_ne_nil _)
    | cons p ps =>
      rw [splitComma_cons_of c h, if_neg hc]
      rw [ih r hcs] at h
      cases h
      rfl

theorem splitComma_space_cons {l p : List Char} {ps : List (List Char)}
    (h : splitComma l = p :: ps) :
    splitComma (' ' :: l) = (' ' :: p) :: ps := by
  rw [splitComma_cons_of ' ' h, if_neg (by decide)]

theorem trimChars_space (l : List Char) : trimChars (' ' :: l) = trimChars l := by
  unfold trimChars
  rw [List.dropWhile_cons, if_pos (by decide)]

theorem length_dropWhile_le2 (p : Char → Bool) (l : List Char) :
    (l.dropWhile p).length ≤ l.length := by
  induction l with
  | nil => simp
  | cons c cs ih =>
    rw [List.dropWhile_cons]
    split_ifs
    · simp only [List.length_cons]
      omega
    · simp

theorem trimChars_eq_self (l : List Char)
    (h1 : ∀ c, l.head? = some c → isRustWs c = false)
    (h2 : ∀ c, l.getLast? = some c → isRustWs c = false) :
    trimChars l = l := by
  cases hl : l with
  | nil => rfl
  | cons c r =>
    have hc : isRustWs c = false := h1 c (by rw [hl]; rfl)
    have hstep1 : List.dropWhile isRustWs (c :: r) = c :: r := by
      rw [List.dropWhile_cons, if_neg (by simp [hc])]
    cases hrev : (c :: r).reverse with
    | nil => simp at hrev
    | cons d q =>
      have hd : (c :: r).getLast? = some d := by
        rw [← List.head?_reverse, hrev]
        rfl
      have hdws : isRustWs d = false := h2 d (by rw [← hl] at hd; exact hd)
      have hstep2 : List.dropWhile isRustWs (d :: q) = d :: q := by
        rw [List.dropWhile_cons, if_neg (by simp [hdws])]
      unfold trimChars
      rw [hstep1, hrev, hstep2, ← hrev, List.reverse_reverse]

theorem splitComma_length : ∀ (l : List Char) (p : List Char),
    p ∈ splitComma l → p.length ≤ l.length := by
  intro l
  induction l with
  | nil =>
    intro p hp
    simp [splitComma] at hp
    simp [hp]
  | cons c cs ih =>
    intro p hp
    unfold splitComma at hp
    cases h : splitComma cs with
    | nil => exact absurd h (splitComma_ne_nil cs)
    | cons q qs =>
      rw [h] at hp
      split_ifs at hp
      · rcases List.mem_cons.mp hp with rfl | hmem
        · simp
        · have := ih p (h ▸ hmem)
          simp only [List.length_cons]
          omega
      · rcases List.mem_cons.mp hp with rfl | hmem
        · have := ih q (h ▸ List.mem_cons_self q qs)
          simp only [List.length_cons]
          omega
        · have := ih p (h ▸ List.mem_cons_of_mem q hmem)
          simp only [List.length_cons]
          omega

theorem trimChars_length (l : List Char) : (trimChars l).length ≤ l.length := by
  unfold trimChars
  have h1 := length_dropWhile_le2 isRustWs l
  have h2 := length_dropWhile_le2 isRustWs ((l.dropWhile isRustWs).reverse)
  simp only [List.length_reverse] at *
  omega

theorem parseFieldsWith_congr {pf1 pf2 : List Char → Except Unit ParamType} :
    ∀ parts : List (List Char), (∀ p ∈ parts, pf1 p = pf2 p) →
      parseFieldsWith pf1 parts = parseFieldsWith pf2 parts := by
  intro parts
  induction parts with
  | nil => intro _; rfl
  | cons p ps ih =>
    intro h
    unfold parseFieldsWith
    rw [h p (List.mem_cons_self p ps), ih (fun q hq => h q (List.mem_cons_of_mem p hq))]

set_option maxHeartbeats 1600000 in
theorem leafType_none_of_last (s : List Char) (c : Char)
    (hc : c = ']' ∨ c = ')') (h : s.getLast? = some c) : leafType s = none := by
  have key : ∀ lit : List Char, lit.getLast? ≠ some c → s ≠ lit :=
    fun lit hlit heq => hlit (heq ▸ h)
  unfold leafType
  repeat rw [if_neg (key _ (by rcases hc with rfl | rfl <;> decide))]

theorem nameFacts : ∀ f t, tySize t ≤ f →
    ∃ c rest, ParamType.name t = c :: rest ∧ isRustWs c = false ∧
      ∃ cl, (ParamType.name t).getLast? = some cl ∧ isRustWs cl = false := by
  intro f
  induction f with
  | zero =>
    intro t hf
    have := tySize_pos t
    omega
  | succ f ih =>
    intro t hf
    cases t with
    | Address => exact ⟨_, _, rfl, by decide, _, rfl, by decide⟩
    | UInt w =>
      simp only [ParamType.name]
      split
      all_goals exact ⟨_, _, rfl, by decide, _, rfl, by decide⟩
    | Int w =>
      simp only [ParamType.name]
      split
      all_goals exact ⟨_, _, rfl, by decide, _, rfl, by decide⟩
    | Bool => exact ⟨_, _, rfl, by decide, _, rfl, by decide⟩
    | String => exact ⟨_, _, rfl, by decide, _, rfl, by decide⟩
    | Bytes => exact ⟨_, _, rfl, by decide, _, rfl, by decide⟩
    | FixedBytes n =>
      simp only [ParamType.name]
      split
      all_goals exact ⟨_, _, rfl, by decide, _, rfl, by decide⟩
    | Array t1 =>
      have hf1 : tySize t1 ≤ f := by simp only [tySize] at hf; omega
      obtain ⟨c, rest, hname, hc, cl, hlast, hcl⟩ := ih t1 hf1
      refine ⟨c, rest ++ "[]".data, ?_, hc, ']', ?_, by decide⟩
      · simp only [ParamType.name, hname, List.cons_append]
      · simp only [ParamType.name]
        rw [show ParamType.name t1 ++ ("[]".data : List Char) =
          (ParamType.name t1 ++ ['[']) ++ [']'] by simp]
        exact List.getLast?_concat _
    | Struct ts =>
      refine ⟨'(', joinCommaSpace (ParamType.nameL ts) ++ [')'], ?_, by decide, ')', ?_,
        by decide⟩
      · simp only [ParamType.name]
      · simp only [ParamType.name]
        rw [show ('(' :: (joinCommaSpace (ParamType.nameL ts) ++ [')'])) =
          (('(' :: joinCommaSpace (ParamType.nameL ts)) ++ [')']) from rfl]
        exact List.getLast?_concat _

theorem name_no_comma : ∀ f t, tySize t ≤ f → commaFree t = true →
    ',' ∉ ParamType.name t := by
  intro f
  induction f with
  | zero =>
    intro t hf
    have := tySize_pos t
    omega
  | succ f ih =>
    intro t hf hcf
    cases t with
    | Address => decide
    | UInt w =>
      simp only [ParamType.name]
      split
      all_goals decide
    | Int w =>
      simp only [ParamType.name]
      split
      all_goals decide
    | Bool => decide
    | String => decide
    | Bytes => decide
    | FixedBytes n =>
      simp only [ParamType.name]
      split
      all_goals decide
    | Array t1 =>
      have hcf1 : commaFree t1 = true := by simpa only [commaFree] using hcf
      have hf1 : tySize t1 ≤ f := by simp only [tySize] at hf; omega
      intro hmem
      simp only [ParamType.name, List.mem_append] at hmem
      rcases hmem with hmem | hmem
      · exact ih t1 hf1 hcf1 hmem
      · exact absurd hmem (by decide)
    | Struct ts =>
      cases ts with
      | nil => simp [commaFree] at hcf
      | cons p ps =>
        cases ps with
        | nil =>
          have hcf1 : commaFree p = true := by simpa only [commaFree] using hcf
          have hf1 : tySize p ≤ f := by simp only [tySize, tySizeL] at hf; omega
          intro hmem
          simp only [ParamType.name, ParamType.nameL] at hmem
          rw [show joinCommaSpace [ParamType.name p] = ParamType.name p from rfl] at hmem
          rcases List.mem_cons.mp hmem with h0 | hmem2
          · exact absurd h0 (by decide)
          · rcases List.mem_append.mp hmem2 with h3 | h3
            · exact ih p hf1 hcf1 h3
            · exact absurd h3 (by decide)
        | cons q qs => simp [commaFree] at hcf

theorem fromStrAux_succ_of_leaf {s : List Char} {t : ParamType}
    (h : leafType s = some t) (f : Nat) : fromStrAux (f + 1) s = .ok t := by
  simp only [fromStrAux]
  rw [h]

theorem fromStrAux_succ_of_none {s : List Char} (h : leafType s = none) (f : Nat) :
    fromStrAux (f + 1) s =
      (if (s.head? == some '(') && (s.getLast? == some ')') then
        match parseFieldsWith (fun p => fromStrAux f (trimChars p))
            (splitComma ((s.drop 1).dropLast)) with
        | .ok ts => .ok (.Struct ts)
        | .error e => .error e
      else if s.reverse.take 2 == [']', '['] then
        match fromStrAux f (s.dropLast.dropLast) with
        | .ok t => .ok (.Array t)
        | .error e => .error e
      else .error ()) := by
  simp only [fromStrAux]
  rw [h]

theorem tuple_cond_len {s : List Char}
    (h : ((s.head? == some '(') && (s.getLast? == some ')')) = true) :
    2 ≤ s.length := by
  simp only [Bool.and_eq_true, beq_iff_eq] at h
  cases s with
  | nil => simp at h
  | cons a as =>
    cases as with
    | nil =>
      obtain ⟨h1, h2⟩ := h
      simp at h1 h2
      rw [h1] at h2
      cases h2
    | cons b bs => simp

theorem array_cond_len {s : List Char}
    (h : (s.reverse.take 2 == [']', '[']) = true) : 2 ≤ s.length := by
  simp only [beq_iff_eq] at h
  have hl := congrArg List.length h
  simp only [List.length_take, List.length_reverse] at hl
  simp at hl
  omega

theorem fromStrAux_congr : ∀ f g s, s.length < f → s.length < g →
    fromStrAux f s = fromStrAux g s := by
  intro f
  induction f with
  | zero =>
    intro g s hf
    omega
  | succ f ih =>
    intro g s hf hg
    cases g with
    | zero => omega
    | succ g =>
      cases hleaf : leafType s with
      | some t => rw [fromStrAux_succ_of_leaf hleaf, fromStrAux_succ_of_leaf hleaf]
      | none =>
        rw [fromStrAux_succ_of_none hleaf f, fromStrAux_succ_of_none hleaf g]
        split_ifs with h1 h2
        · have hlen2 := tuple_cond_len h1
          have hcong : parseFieldsWith (fun p => fromStrAux f (trimChars p))
              (splitComma ((s.drop 1).dropLast)) =
              parseFieldsWith (fun p => fromStrAux g (trimChars p))
                (splitComma ((s.drop 1).dropLast)) := by
            apply parseFieldsWith_congr
            intro p hp
            have hsp := splitComma_length _ p hp
            have htr := trimChars_length p
            have hdl : ((s.drop 1).dropLast).length = s.length - 1 - 1 := by
              simp [List.length_dropLast, List.length_drop]
            apply ih
            · omega
            · omega
          rw [hcong]
        · have hlen2 := array_cond_len h2
          have hdl : (s.dropLast.dropLast).length = s.length - 1 - 1 := by
            simp [List.length_dropLast]
          rw [ih g (s.dropLast.dropLast) (by omega) (by omega)]
        · rfl

theorem structsNonemptyL_mem {p : ParamType} : ∀ {ps : List ParamType},
    structsNonemptyL ps = true → p ∈ ps → structsNonempty p = true := by
  intro ps
  induction ps with
  | nil => intro _ h; cases h
  | cons q qs ih =>
    intro hwf h
    simp only [structsNonemptyL, Bool.and_eq_true] at hwf
    rcases List.mem_cons.mp h with rfl | hmem
    · exact hwf.1
    · exact ih hwf.2 hmem

theorem commaFreeL_mem {p : ParamType} : ∀ {ps : List ParamType},
    commaFreeL ps = true → p ∈ ps → commaFree p = true := by
  intro ps
  induction ps with
  | nil => intro _ h; cases h
  | cons q qs ih =>
    intro hwf h
    simp only [commaFreeL, Bool.and_eq_true] at hwf
    rcases List.mem_cons.mp h with rfl | hmem
    · exact hwf.1
    · exact ih hwf.2 hmem

theorem parseFieldsWith_cons_ok {pf : List Char → Except Unit ParamType}
    {x : List Char} {t : ParamType} {rest : List (List Char)} {ts : List ParamType}
    (h1 : pf x = .ok t) (h2 : parseFieldsWith pf rest = .ok ts) :
    parseFieldsWith pf (x :: rest) = .ok (t :: ts) := by
  unfold parseFieldsWith
  rw [h1, h2]
  rfl

theorem name_mem_join_length : ∀ (ts : List ParamType) (p : ParamType), p ∈ ts →
    (ParamType.name p).length ≤ (joinCommaSpace (ParamType.nameL ts)).length := by
  intro ts
  induction ts with
  | nil => intro p h; cases h
  | cons t ts2 ih =>
    intro p hp
    cases ts2 with
    | nil =>
      rcases List.mem_cons.mp hp with rfl | hmem
      · rfl
      · cases hmem
    | cons t2 ts3 =>
      rw [show joinCommaSpace (ParamType.nameL (t :: t2 :: ts3)) =
        ParamType.name t ++ ',' :: ' ' :: joinCommaSpace (ParamType.nameL (t2 :: ts3))
        from rfl]
      simp only [List.length_append, List.length_cons]
      rcases List.mem_cons.mp hp with rfl | hmem
      · omega
      · have := ih p hmem
        omega

theorem parse_fields_round (F : Nat) : ∀ ts : List ParamType, ts ≠ [] →
    (∀ p ∈ ts, ',' ∉ ParamType.name p) →
    (∀ p ∈ ts, trimChars (ParamType.name p) = ParamType.name p) →
    (∀ p ∈ ts, fromStrAux F (ParamType.name p) = .ok p) →
    parseFieldsWith (fun p => fromStrAux F (trimChars p))
      (splitComma (joinCommaSpace (ParamType.nameL ts))) = .ok ts := by
  intro ts
  induction ts with
  | nil => intro h; exact absurd rfl h
  | cons t ts2 ih =>
    intro _ hnc htr hok
    have hmt : t ∈ t :: ts2 := List.mem_cons_self t ts2
    have hhead : (fun p => fromStrAux F (trimChars p)) (ParamType.name t) = .ok t := by
      show fromStrAux F (trimChars (ParamType.name t)) = .ok t
      rw [htr t hmt]
      exact hok t hmt
    cases ts2 with
    | nil =>
      rw [show joinCommaSpace (ParamType.nameL [t]) = ParamType.name t from rfl]
      rw [splitComma_no_comma _ (hnc t hmt)]
      exact parseFieldsWith_cons_ok hhead rfl
    | cons t2 ts3 =>
      rw [show joinCommaSpace (ParamType.nameL (t :: t2 :: ts3)) =
        ParamType.name t ++ ',' :: ' ' :: joinCommaSpace (ParamType.nameL (t2 :: ts3))
        from rfl]
      rw [splitComma_append_comma _ _ (hnc t hmt)]
      cases hsp : splitComma (joinCommaSpace (ParamType.nameL (t2 :: ts3))) with
      | nil => exact absurd hsp (splitComma_ne_nil _)
      | cons p ps =>
        rw [splitComma_space_cons hsp]
        have hihres := ih (by simp)
          (fun q hq => hnc q (List.mem_cons_of_mem t hq))
          (fun q hq => htr q (List.mem_cons_of_mem t hq))
          (fun q hq => hok q (List.mem_cons_of_mem t hq))
        rw [hsp] at hihres
        have heq : parseFieldsWith (fun q => fromStrAux F (trimChars q)) ((' ' :: p) :: ps) =
            parseFieldsWith (fun q => fromStrAux F (trimChars q)) (p :: ps) := by
          simp only [parseFieldsWith, trimChars_space]
        exact parseFieldsWith_cons_ok hhead (heq.trans hihres)

theorem name_trim_self (t : ParamType) :
    trimChars (ParamType.name t) = ParamType.name t := by
  obtain ⟨c, rest, hname, hc, cl, hlast, hcl⟩ := nameFacts (tySize t) t le_rfl
  apply trimChars_eq_self
  · intro c2 hc2
    rw [hname] at hc2
    simp only [List.head?_cons, Option.some.injEq] at hc2
    exact hc2 ▸ hc
  · intro c2 hc2
    rw [hlast] at hc2
    cases hc2
    exact hcl

theorem fromStr_name_aux : ∀ f t, tySize t ≤ f → wfType t = true →
    structsNonempty t = true → rtOK t = true →
    ParamType.from_str (ParamType.name t) = .ok t := by
  intro f
  induction f with
  | zero =>
    intro t hf
    have := tySize_pos t
    omega
  | succ f ih =>
    intro t hf hwf hsn hrt
    cases t with
    | Address => rfl
    | UInt w =>
      simp only [wfType, Bool.or_eq_true, beq_iff_eq] at hwf
      rcases hwf with ((((rfl | rfl) | rfl) | rfl) | rfl) | rfl <;> rfl
    | Int w =>
      simp only [wfType, Bool.or_eq_true, beq_iff_eq] at hwf
      rcases hwf with ((((rfl | rfl) | rfl) | rfl) | rfl) | rfl <;> rfl
    | Bool => rfl
    | String => rfl
    | Bytes => rfl
    | FixedBytes n =>
      simp only [wfType, Bool.or_eq_true, beq_iff_eq] at hwf
      rcases hwf with (((rfl | rfl) | rfl) | rfl) | rfl <;> rfl
    | Array t1 =>
      have hf1 : tySize t1 ≤ f := by simp only [tySize] at hf; omega
      have hwf1 : wfType t1 = true := by simpa only [wfType] using hwf
      have hsn1 : structsNonempty t1 = true := by simpa only [structsNonempty] using hsn
      have hrt1 : rtOK t1 = true := by simpa only [rtOK] using hrt
      have hsplit : ParamType.name (.Array t1) =
          (ParamType.name t1 ++ ['[']) ++ [']'] := by
        simp only [ParamType.name]
        simp
      have hlast2 : (ParamType.name (.Array t1)).getLast? = some ']' := by
        rw [hsplit]
        exact List.getLast?_concat _
      have hleaf := leafType_none_of_last _ _ (Or.inl rfl) hlast2
      unfold ParamType.from_str
      rw [fromStrAux_succ_of_none hleaf _]
      rw [if_neg (by rw [hlast2]; simp)]
      rw [if_pos (by rw [hsplit]; simp)]
      have hdd : (ParamType.name (.Array t1)).dropLast.dropLast = ParamType.name t1 := by
        rw [hsplit, List.dropLast_concat, List.dropLast_concat]
      rw [hdd]
      have hfuel : fromStrAux (ParamType.name (.Array t1)).length (ParamType.name t1) =
          ParamType.from_str (ParamType.name t1) := by
        unfold ParamType.from_str
        apply fromStrAux_congr
        · rw [hsplit]
          simp only [List.length_append, List.length_cons, List.length_nil]
          omega
        · omega
      rw [hfuel, ih t1 hf1 hwf1 hsn1 hrt1]
    | Struct ts =>
      simp only [structsNonempty, Bool.and_eq_true] at hsn
      obtain ⟨hne0, hsnl⟩ := hsn
      have hne : ts ≠ [] := by
        cases ts with
        | nil => simp at hne0
        | cons a l => simp
      have hrtl : commaFreeL ts = true := by simpa only [rtOK] using hrt
      have hwfl : wfTypeL ts = true := by simpa only [wfType] using hwf
      have hfl : tySizeL ts ≤ f := by simp only [tySize] at hf; omega
      have hs : ParamType.name (.Struct ts) =
          '(' :: (joinCommaSpace (ParamType.nameL ts) ++ [')']) := by
        simp only [ParamType.name]
      have hlast2 : (ParamType.name (.Struct ts)).getLast? = some ')' := by
        rw [hs]
        rw [show ('(' :: (joinCommaSpace (ParamType.nameL ts) ++ [')'])) =
          (('(' :: joinCommaSpace (ParamType.nameL ts)) ++ [')']) from rfl]
        exact List.getLast?_concat _
      have hleaf := leafType_none_of_last _ _ (Or.inr rfl) hlast2
      unfold ParamType.from_str
      rw [fromStrAux_succ_of_none hleaf _]
      rw [if_pos (by rw [hlast2, hs]; simp)]
      have hinner : ((ParamType.name (.Struct ts)).drop 1).dropLast =
          joinCommaSpace (ParamType.nameL ts) := by
        rw [hs]
        simp only [List.drop_one, List.tail_cons]
        exact List.dropLast_concat
      rw [hinner]
      have hfields := parse_fields_round (ParamType.name (.Struct ts)).length ts hne
        (fun p hp => name_no_comma (tySize p) p le_rfl (commaFreeL_mem hrtl hp))
        (fun p hp => name_trim_self p)
        (fun p hp => by
          have hlt : (ParamType.name p).length < (ParamType.name (.Struct ts)).length := by
            have := name_mem_join_length ts p hp
            rw [hs]
            simp only [List.length_cons, List.length_append, List.length_nil]
            omega
          rw [fromStrAux_congr (ParamType.name (.Struct ts)).length
            ((ParamType.name p).length + 1) (ParamType.name p) hlt (by omega)]
          exact ih p (le_trans (tySizeL_le_of_mem hp) hfl)
            (wfTypeL_mem hwfl hp)
            (structsNonemptyL_mem hsnl hp)
            (commaFree_imp_rtOK (tySize p) p le_rfl (commaFreeL_mem hrtl hp)))
      rw [hfields]

/-- C4 counterexample: the valid term `((uint256,bool))` — a two-field
tuple nested inside a tuple — renders to `((uint256, bool))`, but
`from_str` splits the outer tuple's interior naively on the nested comma
and fails, so `from_str (name t) = Ok t` does not hold for it. -/
theorem C4_nested_tuple_counterexample :
    wfType (.Struct [.Struct [.UInt 256, .Bool]]) = true ∧
    structsNonempty (.Struct [.Struct [.UInt 256, .Bool]]) = true ∧
    ParamType.name (.Struct [.Struct [.UInt 256, .Bool]]) = "((uint256, bool))".data ∧
    ParamType.from_str "((uint256, bool))".data = .error () :=
  ⟨by decide, by decide, by rfl, by rfl⟩

/-- C4 (amended): for every valid type term — widths in
`{8,16,32,64,128,256}`, fixed-bytes sizes in `{2,4,8,16,32}`, non-empty
tuples — in which no tuple of two or more fields occurs strictly inside
another tuple, parsing the canonical rendering returns the same term:
`from_str (name t) = Ok t`.  (The nested-multi-tuple restriction is forced
by `from_str`'s naive comma split.) -/
theorem C4_grammar_round_trip (t : ParamType) (h1 : wfType t = true)
    (h2 : structsNonempty t = true) (h3 : rtOK t = true) :
    ParamType.from_str (ParamType.name t) = .ok t :=
  fromStr_name_aux (tySize t) t le_rfl h1 h2 h3

theorem C4_grammar_round_trip_witness :
    ParamType.from_str (ParamType.name (.Array (.Struct [.UInt 256, .Bool]))) =
      .ok (.Array (.Struct [.UInt 256, .Bool])) :=
  C4_grammar_round_trip (.Array (.Struct [.UInt 256, .Bool]))
    (by decide) (by decide) (by decide)

/-! ### C10: the two parallel decoder implementations -/

mutual

/-- The type term contains no `String` sub-term. -/
def stringFree : ParamType → Bool
  | .String => false
  | .Array t => stringFree t
  | .Struct ts => stringFreeL ts
  | _ => true

/-- `stringFree` on every element. -/
def stringFreeL : List ParamType → Bool
  | [] => true
  | p :: ps => stringFree p && stringFreeL ps

end

theorem stringFreeL_mem {p : ParamType} : ∀ {ps : List ParamType},
    stringFreeL ps = true → p ∈ ps → stringFree p = true := by
  intro ps
  induction ps with
  | nil => intro _ h; cases h
  | cons q qs ih =>
    intro hwf h
    simp only [stringFreeL, Bool.and_eq_true] at hwf
    rcases List.mem_cons.mp h with rfl | hmem
    · exact hwf.1
    · exact ih hwf.2 hmem

/-- The error message decode.rs uses where decoder.rs uses the
corresponding `DecodeError` variant (the signed-integer and UTF-8 cases
are unreachable in the string-free fragment). -/
def toStrErr : DecodeError → String
  | .outOfBounds => "Out of bounds"
  | .invalidUnsignedInteger => "Data is not a valid unsigned integer"
  | .invalidSignedInteger => "Data is not a valid signed integer"
  | .utf8Error => "UTF-8 error"
  | .memoryAllocationError => "Out of memory"

/-- Replace the error component of an outcome. -/
def mapErrO {ε ε2 α : Type} (f : ε → ε2) : Outcome ε α → Outcome ε2 α
  | .ok a => .ok a
  | .err e => .err (f e)
  | .panicked => .panicked

theorem Decode.peek_eq (data : List Nat) (offset len : Nat) :
    Decode.peek data offset len = mapErrO toStrErr (Decoder.peek data offset len) := by
  unfold Decode.peek Decoder.peek
  split_ifs <;> rfl

theorem Decode.peek_32_bytes_eq (data : List Nat) (offset : Nat) :
    Decode.peek_32_bytes data offset =
      mapErrO toStrErr (Decoder.peek_32_bytes data offset) := by
  unfold Decode.peek_32_bytes Decoder.peek_32_bytes
  rw [Decode.peek_eq]
  cases Decoder.peek data offset 32 with
  | ok x =>
    simp only [mapErrO, Outcome.ok_bind]
    split_ifs <;> rfl
  | err e => rfl
  | panicked => rfl

theorem Decode.as_usize_eq (slice : List Nat) :
    Decode.as_usize slice = mapErrO toStrErr (Decoder.as_usize slice) := by
  unfold Decode.as_usize Decoder.as_usize
  split_ifs <;> rfl

theorem Decode.take_bytes_eq (data : List Nat) (offset len : Nat) :
    Decode.take_bytes data offset len =
      mapErrO toStrErr (Decoder.take_bytes data offset len) := by
  unfold Decode.take_bytes Decoder.take_bytes
  split_ifs <;> rfl

theorem decode_loop_eq {dec1 : List Nat → Nat → Outcome DecodeError DecodeResult}
    {dec2 : List Nat → Nat → Outcome String DecodeResult}
    (h : ∀ d o, dec2 d o = mapErrO toStrErr (dec1 d o)) :
    ∀ (n : Nat) (tail : List Nat) (off : Nat),
      Decode.decode_param_loop dec2 n tail off =
        mapErrO toStrErr (Decoder.decode_array_loop dec1 n tail off) := by
  intro n
  induction n with
  | zero => intro tail off; rfl
  | succ n ih =>
    intro tail off
    unfold Decode.decode_param_loop Decoder.decode_array_loop
    rw [h tail off]
    cases dec1 tail off with
    | ok r =>
      simp only [mapErrO, Outcome.ok_bind]
      rw [ih tail r.new_offset]
      cases Decoder.decode_array_loop dec1 n tail r.new_offset <;> rfl
    | err e => rfl
    | panicked => rfl

theorem decode_fields_eq {dec1 : ParamType → List Nat → Nat → Outcome DecodeError DecodeResult}
    {dec2 : ParamType → List Nat → Nat → Outcome String DecodeResult}
    {data : List Nat} :
    ∀ ps : List ParamType,
      (∀ p ∈ ps, ∀ o, dec2 p data o = mapErrO toStrErr (dec1 p data o)) →
      ∀ off, Decode.decode_param_fields dec2 ps data off =
        mapErrO toStrErr (Decoder.decode_struct_fields dec1 ps data off) := by
  intro ps
  induction ps with
  | nil => intro _ off; rfl
  | cons p ps ih =>
    intro h off
    unfold Decode.decode_param_fields Decoder.decode_struct_fields
    rw [h p (List.mem_cons_self p ps) off]
    cases dec1 p data off with
    | ok r =>
      simp only [mapErrO, Outcome.ok_bind]
      rw [ih (fun q hq => h q (List.mem_cons_of_mem p hq)) r.new_offset]
      cases Decoder.decode_struct_fields dec1 ps data r.new_offset <;> rfl
    | err e => rfl
    | panicked => rfl

theorem decPm_eq_mapErr : ∀ f t data offset, stringFree t = true →
    Decode.decPm f t data offset =
      mapErrO toStrErr (Decoder.decP f t data offset) := by
  intro f
  induction f with
  | zero => intro t data offset _; rfl
  | succ f ih =>
    intro t data offset hsf
    cases t with
    | Address =>
      simp only [Decode.decPm, Decoder.decP]
      unfold Decoder.decode_address
      rw [Decode.peek_32_bytes_eq]
      cases Decoder.peek_32_bytes data offset <;> rfl
    | UInt w0 =>
      simp only [Decode.decPm, Decoder.decP]
      unfold Decoder.decode_uint
      rw [Decode.peek_32_bytes_eq]
      cases hp : Decoder.peek_32_bytes data offset with
      | ok w =>
        obtain ⟨-, -, hwl⟩ := Decoder.peek_32_bytes_ok hp
        simp only [mapErrO, Outcome.ok_bind]
        rw [signedFromBe32_eq_some (by omega)]
        rfl
      | err e => rfl
      | panicked => rfl
    | Int w0 =>
      simp only [Decode.decPm, Decoder.decP]
      unfold Decoder.decode_int
      rw [Decode.peek_32_bytes_eq]
      cases hp : Decoder.peek_32_bytes data offset with
      | ok w =>
        obtain ⟨-, -, hwl⟩ := Decoder.peek_32_bytes_ok hp
        simp only [mapErrO, Outcome.ok_bind]
        rw [signedFromBe32_eq_some (by omega)]
        rfl
      | err e => rfl
      | panicked => rfl
    | Bool =>
      simp only [Decode.decPm, Decoder.decP]
      unfold Decoder.decode_bool
      rw [Decode.peek_32_bytes_eq]
      cases Decoder.peek_32_bytes data offset <;> rfl
    | String => simp [stringFree] at hsf
    | Bytes =>
      simp only [Decode.decPm, Decoder.decP]
      unfold Decoder.decode_bytes
      rw [Decode.peek_32_bytes_eq]
      cases Decoder.peek_32_bytes data offset with
      | ok w =>
        simp only [mapErrO, Outcome.ok_bind]
        rw [Decode.as_usize_eq]
        cases Decoder.as_usize w with
        | ok dyn =>
          simp only [mapErrO, Outcome.ok_bind]
          rw [Decode.peek_32_bytes_eq]
          cases Decoder.peek_32_bytes data dyn with
          | ok w2 =>
            simp only [mapErrO, Outcome.ok_bind]
            rw [Decode.as_usize_eq]
            cases Decoder.as_usize w2 with
            | ok len =>
              simp only [mapErrO, Outcome.ok_bind]
              rw [Decode.take_bytes_eq]
              cases Decoder.take_bytes data (wrapAdd dyn 32) len <;> rfl
            | err e => rfl
            | panicked => rfl
          | err e => rfl
          | panicked => rfl
        | err e => rfl
        | panicked => rfl
      | err e => rfl
      | panicked => rfl
    | FixedBytes n =>
      simp only [Decode.decPm, Decoder.decP]
      unfold Decoder.decode_fixed_bytes
      rw [Decode.take_bytes_eq]
      cases Decoder.take_bytes data offset n <;> rfl
    | Array t1 =>
      have hsf1 : stringFree t1 = true := by simpa only [stringFree] using hsf
      simp only [Decode.decPm, Decoder.decP]
      rw [Decode.peek_32_bytes_eq]
      cases Decoder.peek_32_bytes data offset with
      | ok w =>
        simp only [mapErrO, Outcome.ok_bind]
        rw [Decode.as_usize_eq]
        cases Decoder.as_usize w with
        | ok len_offset =>
          simp only [mapErrO, Outcome.ok_bind]
          rw [Decode.peek_32_bytes_eq]
          cases Decoder.peek_32_bytes data len_offset with
          | ok w2 =>
            simp only [mapErrO, Outcome.ok_bind]
            rw [Decode.as_usize_eq]
            cases Decoder.as_usize w2 with
            | ok len =>
              simp only [mapErrO, Outcome.ok_bind]
              split_ifs with htail
              · rw [decode_loop_eq (fun d o => ih t1 d o hsf1) len
                  (data.drop (wrapAdd len_offset 32)) 0]
                cases Decoder.decode_array_loop (Decoder.decP f t1) len
                  (data.drop (wrapAdd len_offset 32)) 0 <;> rfl
              · rfl
            | err e => rfl
            | panicked => rfl
          | err e => rfl
          | panicked => rfl
        | err e => rfl
        | panicked => rfl
      | err e => rfl
      | panicked => rfl
    | Struct ts =>
      have hsfl : stringFreeL ts = true := by simpa only [stringFree] using hsf
      simp only [Decode.decPm, Decoder.decP]
      rw [decode_fields_eq ts
        (fun p hp o => ih p data o (stringFreeL_mem hsfl hp)) offset]
      cases Decoder.decode_struct_fields (Decoder.decP f) ts data offset <;> rfl

/-- C10: for every type term without a `String` sub-term, the two parallel
implementations (`EthereumDecoder::decode_parameter` in decoder.rs and
`decode_param` in decode.rs) succeed on exactly the same inputs with a
structurally equal parameter and equal `new_offset`, and fail together;
for a `String` term with an invalid-UTF-8 payload they diverge: decoder.rs
fails with `Utf8Error` while decode.rs succeeds with the lossy U+FFFD
substitution. -/
theorem C10_parallel_decoders_agree :
    (∀ t data offset, stringFree t = true →
      ((∀ r, Decoder.decode_parameter t data offset = .ok r ↔
          Decode.decode_param data t offset = .ok r) ∧
        ((∃ e, Decoder.decode_parameter t data offset = .err e) ↔
          (∃ e2, Decode.decode_param data t offset = .err e2)))) ∧
    (Decoder.decode_parameter .String (word 0x20 ++ word 1 ++ [0x80]) 0 =
        .err .utf8Error ∧
      Decode.decode_param (word 0x20 ++ word 1 ++ [0x80]) .String 0 =
        .ok ⟨.string replacementBytes, 32⟩) := by
  constructor
  · intro t data offset hsf
    have heq : Decode.decode_param data t offset =
        mapErrO toStrErr (Decoder.decode_parameter t data offset) :=
      decPm_eq_mapErr (tySize t) t data offset hsf
    rw [heq]
    cases Decoder.decode_parameter t data offset with
    | ok r =>
      refine ⟨fun r2 => ?_, ?_⟩
      · constructor
        · intro h
          cases h
          rfl
        · intro h
          simp only [mapErrO] at h
          cases h
          rfl
      · constructor
        · rintro ⟨e, he⟩
          cases he
        · rintro ⟨e, he⟩
          simp only [mapErrO] at he
          cases he
    | err e =>
      refine ⟨fun r2 => ?_, ?_⟩
      · constructor
        · intro h
          cases h
        · intro h
          simp only [mapErrO] at h
          cases h
      · exact ⟨fun _ => ⟨toStrErr e, rfl⟩, fun _ => ⟨e, rfl⟩⟩
    | panicked =>
      refine ⟨fun r2 => ?_, ?_⟩
      · constructor
        · intro h
          cases h
        · intro h
          simp only [mapErrO] at h
          cases h
      · constructor
        · rintro ⟨e, he⟩
          cases he
        · rintro ⟨e, he⟩
          simp only [mapErrO] at he
          cases he
    ---
  · exact ⟨by rfl, by rfl⟩

theorem C10_parallel_decoders_agree_witness :
    (∀ r, Decoder.decode_parameter (.Array (.UInt 256))
        (word 0x20 ++ word 3 ++ word 1 ++ word 2 ++ word 3) 0 = .ok r ↔
      Decode.decode_param (word 0x20 ++ word 3 ++ word 1 ++ word 2 ++ word 3)
        (.Array (.UInt 256)) 0 = .ok r) ∧
    ((∃ e, Decoder.decode_parameter (.Array (.UInt 256))
        (word 0x20 ++ word 3 ++ word 1 ++ word 2 ++ word 3) 0 = .err e) ↔
      (∃ e2, Decode.decode_param (word 0x20 ++ word 3 ++ word 1 ++ word 2 ++ word 3)
        (.Array (.UInt 256)) 0 = .err e2)) :=
  C10_parallel_decoders_agree.1 (.Array (.UInt 256))
    (word 0x20 ++ word 3 ++ word 1 ++ word 2 ++ word 3) 0 (by decide)
